import Mathlib

/-!
# Shallow embedding of the `matrix-go` matrix library

This file embeds the core of the repository (dense and sparse/hash matrix
backends, the rewrite-strategy view mechanism, shape/index validation and
the shared operator set) as executable Lean definitions, and proves the
claims of the specification against them.

Scalar elements are modelled by an arbitrary linearly ordered commutative
ring `K` (the library's `float64` values under exact arithmetic); concrete
instances use `K = ℤ`.  Go panics are modelled by `Except MatrixPanic`.

The packages `internal/rewriters` and `internal/validates` and the cursor
implementations are referenced by the sources but their implementation
files are not part of the source tree; those definitions are modelled from
the spec (and from `validates`' test file), as marked in their doc
comments.  Everything else is translated directly from `src/hash/hash.go`
and `src/dense/dense.go`.
-/

namespace MatrixGo

/-- The named panic conditions of the `validates` package (spec §7). -/
inductive MatrixPanic where
  | NonPositiveSize
  | InvalidElements
  | DifferentSize
  | NotMultipliable
  | OutOfRange
  | ViewOutOfBase
  deriving DecidableEq, Repr

/-- `types.Shape`: an immutable (rows, columns) pair. -/
structure Shape where
  rows : Int
  columns : Int
  deriving DecidableEq, Repr

/-- `types.Index`: an immutable (row, column) pair. -/
structure Index where
  row : Int
  column : Int
  deriving DecidableEq, Repr

/-- Modelled from the spec (§4.1, package `internal/rewriters` is absent
from the source tree): the two rewrite strategies.  `reflect` is the
identity strategy returned by `rewriters.Reflect()` and attached to every
freshly constructed matrix; `reverse` is the transpose-swap strategy. -/
inductive Rewriter where
  | reflect
  | reverse
  deriving DecidableEq, Repr

/-- Modelled from the spec (§4.1): `rewrite(a, b) -> (a', b')`; the
identity variant maps `(a, b)` to `(a, b)`, the transpose variant maps
`(a, b)` to `(b, a)`. -/
def Rewriter.Rewrite : Rewriter → Int → Int → Int × Int
  | .reflect, a, b => (a, b)
  | .reverse, a, b => (b, a)

/-- Modelled from the spec (§4.1): `transpose()` on a strategy returns its
structural opposite (identity ↔ transpose), never a third variant. -/
def Rewriter.Transpose : Rewriter → Rewriter
  | .reflect => .reverse
  | .reverse => .reflect

/-- Modelled from the spec (§4.2) and `validates/validates_test.go`:
shape positivity fails with `NonPositiveSize` when rows ≤ 0 or
columns ≤ 0. -/
def ShapeShouldBePositive (rows columns : Int) : Except MatrixPanic Unit :=
  if 0 < rows ∧ 0 < columns then .ok () else .error .NonPositiveSize

/-- Modelled from the spec (§4.2) and `validates/validates_test.go`:
index bounds fail with `OutOfRange` when row ∉ [0, rows) or
column ∉ [0, columns). -/
def IndexShouldBeInRange (rows columns row column : Int) : Except MatrixPanic Unit :=
  if 0 ≤ row ∧ row < rows ∧ 0 ≤ column ∧ column < columns then .ok ()
  else .error .OutOfRange

/-- Modelled from the spec (§4.2): shape equality fails with
`DifferentSize` when the two matrices' (rows, columns) differ. -/
def ShapeShouldBeSame (s t : Int × Int) : Except MatrixPanic Unit :=
  if s = t then .ok () else .error .DifferentSize

/-- Modelled from the spec (§4.2): multipliability fails with
`NotMultipliable` when left.columns ≠ right.rows. -/
def ShapeShouldBeMultipliable (s t : Int × Int) : Except MatrixPanic Unit :=
  if s.2 = t.1 then .ok () else .error .NotMultipliable

/-- Modelled from the spec (§4.2/§3): view containment fails with
`ViewOutOfBase` when offset + view-shape exceeds the base shape. -/
def ViewShouldBeInBase (base view : Shape) (offset : Index) : Except MatrixPanic Unit :=
  if offset.row + view.rows ≤ base.rows ∧ offset.column + view.columns ≤ base.columns then
    .ok ()
  else .error .ViewOutOfBase

instance {ε α : Type} [DecidableEq ε] [DecidableEq α] : DecidableEq (Except ε α) := fun x y =>
  match x, y with
  | .ok u, .ok v => if h : u = v then .isTrue (by rw [h]) else .isFalse (by simp [h])
  | .error u, .error v => if h : u = v then .isTrue (by rw [h]) else .isFalse (by simp [h])
  | .ok _, .error _ => .isFalse (by simp)
  | .error _, .ok _ => .isFalse (by simp)

/-- `[0, 1, …, n-1]` as integers — the index sequence of a Go
`for i := 0; i < n; i++` loop. -/
def intRange (n : Int) : List Int :=
  (List.range n.toNat).map (Nat.cast : Nat → Int)

/-- The logical cells of a `rows × columns` matrix in row-major order. -/
def allCells (rows columns : Int) : List (Int × Int) :=
  (intRange rows).flatMap fun r => (intRange columns).map fun c => (r, c)

section Scalar

variable {K : Type} [LinearOrderedCommRing K]

/-! ## The Go map primitives

The sparse backend's `map[int]float64` is modelled as an association list
with (under the well-formedness invariant) pairwise distinct keys; its
list order stands for the (unspecified) Go map iteration order. -/

/-- Go `element, exist := m[key]`. -/
def mapLookup : List (Int × K) → Int → Option K
  | [], _ => none
  | (k, v) :: rest, key => if k = key then some v else mapLookup rest key

/-- Go `m[key] = value` (replace an existing binding, else append). -/
def mapInsert : List (Int × K) → Int → K → List (Int × K)
  | [], key, value => [(key, value)]
  | (k, v) :: rest, key, value =>
      if k = key then (k, value) :: rest else (k, v) :: mapInsert rest key value

/-- Go `delete(m, key)`. -/
def mapErase : List (Int × K) → Int → List (Int × K)
  | [], _ => []
  | (k, v) :: rest, key => if k = key then rest else (k, v) :: mapErase rest key

/-! ## The sparse (hash) backend: `src/hash/hash.go` -/

/-- `hash.Matrix` (src/hash/hash.go lines 16-23). -/
structure HashMatrix (K : Type) where
  initialized : Bool
  base : Shape
  view : Shape
  offset : Index
  elements : List (Int × K)
  rewriter : Rewriter
  deriving DecidableEq

/-- `hash.Element` (src/hash/hash.go lines 25-29). -/
structure HashElement (K : Type) where
  Row : Int
  Column : Int
  Value : K
  deriving DecidableEq

/-- The element-loading loop of `hash.New` (src/hash/hash.go lines
53-67): validate each element's index against the shape, reject an
already-present key with `InvalidElements`, and store the value. -/
def hashLoad (columns : Int) (shape : Shape) :
    List (Int × K) → List (HashElement K) → Except MatrixPanic (List (Int × K))
  | acc, [] => .ok acc
  | acc, element :: rest => do
      IndexShouldBeInRange shape.rows shape.columns element.Row element.Column
      let key := element.Row * columns + element.Column
      match mapLookup acc key with
      | some _ => .error .InvalidElements
      | none => hashLoad columns shape (mapInsert acc key element.Value) rest

/-- `hash.New` (src/hash/hash.go lines 37-73), uncurried: the shape
validation of `New(rows, columns)` happens before the constructor's
element-loading loop. -/
def hashNew (rows columns : Int) (elements : List (HashElement K)) :
    Except MatrixPanic (HashMatrix K) := do
  ShapeShouldBePositive rows columns
  let shape : Shape := ⟨rows, columns⟩
  let offset : Index := ⟨0, 0⟩
  let loaded ← hashLoad columns shape [] elements
  .ok { initialized := true, base := shape, view := shape, offset := offset,
        elements := loaded, rewriter := .reflect }

/-- `hash.Zeros` (src/hash/hash.go lines 78-80). -/
def hashZeros (rows columns : Int) : Except MatrixPanic (HashMatrix K) :=
  hashNew rows columns []

/-- `(*hash.Matrix).Shape` (src/hash/hash.go lines 186-188). -/
def HashMatrix.Shape (m : HashMatrix K) : Int × Int :=
  m.rewriter.Rewrite m.view.rows m.view.columns

/-- `(*hash.Matrix).Rows`. -/
def HashMatrix.Rows (m : HashMatrix K) : Int := m.Shape.1

/-- `(*hash.Matrix).Columns`. -/
def HashMatrix.Columns (m : HashMatrix K) : Int := m.Shape.2

/-- The physical storage key addressed by `(*hash.Matrix).Get`/`Update`
after rewriting: `(row+offset.row)*base.columns + column + offset.column`
(src/hash/hash.go lines 218/233). `row`/`column` here are already
rewritten. -/
def HashMatrix.key (m : HashMatrix K) (row column : Int) : Int :=
  (row + m.offset.row) * m.base.columns + column + m.offset.column

/-- `(*hash.Matrix).Get` (src/hash/hash.go lines 213-226): rewrite the
requested coordinate, validate it against the view shape, and look the
physical key up, defaulting to 0 for an absent key. -/
def HashMatrix.Get (m : HashMatrix K) (row column : Int) : Except MatrixPanic K := do
  let rc := m.rewriter.Rewrite row column
  IndexShouldBeInRange m.view.rows m.view.columns rc.1 rc.2
  let index := m.key rc.1 rc.2
  match mapLookup m.elements index with
  | none => .ok 0
  | some element => .ok element

/-- Raw (cursor-side) storage read: `Get` without the bounds check.  Used
by the cursor models; agrees with `Get` on every valid coordinate. -/
def HashMatrix.GetF (m : HashMatrix K) (row column : Int) : K :=
  let rc := m.rewriter.Rewrite row column
  (mapLookup m.elements (m.key rc.1 rc.2)).getD 0

/-- `(*hash.Matrix).Update` (src/hash/hash.go lines 228-242): same
addressing as `Get`; a zero value deletes the key, a non-zero value is
stored. -/
def HashMatrix.Update (m : HashMatrix K) (row column : Int) (element : K) :
    Except MatrixPanic (HashMatrix K) := do
  let rc := m.rewriter.Rewrite row column
  IndexShouldBeInRange m.view.rows m.view.columns rc.1 rc.2
  let index := m.key rc.1 rc.2
  if element = 0 then
    .ok { m with elements := mapErase m.elements index }
  else
    .ok { m with elements := mapInsert m.elements index element }

/-- Modelled from the spec (§4.3, the hash cursor implementation file is
absent from the source tree): the `All` cursor visits every logical
(row, column) in row-major order, including zeros, yielding the stored
value. -/
def HashMatrix.All (m : HashMatrix K) : List (K × Int × Int) :=
  (allCells m.Rows m.Columns).map fun rc => (m.GetF rc.1 rc.2, rc.1, rc.2)

/-- Modelled from the spec (§4.3/§4.5, the hash cursor implementation
file is absent from the source tree): the `NonZeros` cursor iterates the
backing map directly (here: in association-list order), keeping the
entries that hold a non-zero value and fall inside the view window, and
yields coordinates in the logical (rewritten, view-relative) frame. -/
def HashMatrix.NonZeros (m : HashMatrix K) : List (K × Int × Int) :=
  m.elements.filterMap fun kv =>
    let prow := Int.tdiv kv.1 m.base.columns
    let pcol := Int.tmod kv.1 m.base.columns
    let vrow := prow - m.offset.row
    let vcol := pcol - m.offset.column
    if kv.2 ≠ 0 ∧ 0 ≤ vrow ∧ vrow < m.view.rows ∧ 0 ≤ vcol ∧ vcol < m.view.columns then
      some (kv.2, m.rewriter.Rewrite vrow vcol)
    else none

/-- `(*hash.Matrix).Diagonal` (src/hash/hash.go lines 208-211) is
unimplemented: it returns a nil cursor (`none`). -/
def HashMatrix.Diagonal (_ : HashMatrix K) : Option (List (K × Int × Int)) :=
  none

/-- The loop body of `(*hash.Matrix).Equal` (src/hash/hash.go lines
247-254), iterating the argument's `All` cursor. -/
def hashEqualLoop (m : HashMatrix K) : List (K × Int × Int) → Except MatrixPanic Bool
  | [] => .ok true
  | (element, row, column) :: rest => do
      let e ← m.Get row column
      if e ≠ element then .ok false else hashEqualLoop m rest

/-- `(*hash.Matrix).Equal` (src/hash/hash.go lines 244-257). -/
def HashMatrix.Equal (m n : HashMatrix K) : Except MatrixPanic Bool := do
  ShapeShouldBeSame m.Shape n.Shape
  hashEqualLoop m n.All

/-- The loop body of `(*hash.Matrix).Add` (src/hash/hash.go lines
262-267), iterating the argument's `NonZeros` cursor and updating the
receiver in sequence. -/
def hashAddLoop : HashMatrix K → List (K × Int × Int) → Except MatrixPanic (HashMatrix K)
  | m, [] => .ok m
  | m, (element, row, column) :: rest => do
      let e ← m.Get row column
      let m' ← m.Update row column (e + element)
      hashAddLoop m' rest

/-- `(*hash.Matrix).Add` (src/hash/hash.go lines 259-270). -/
def HashMatrix.Add (m n : HashMatrix K) : Except MatrixPanic (HashMatrix K) := do
  ShapeShouldBeSame m.Shape n.Shape
  hashAddLoop m n.NonZeros

/-- The loop body of `(*hash.Matrix).Subtract` (src/hash/hash.go lines
275-280). -/
def hashSubtractLoop : HashMatrix K → List (K × Int × Int) → Except MatrixPanic (HashMatrix K)
  | m, [] => .ok m
  | m, (element, row, column) :: rest => do
      let e ← m.Get row column
      let m' ← m.Update row column (e - element)
      hashSubtractLoop m' rest

/-- `(*hash.Matrix).Subtract` (src/hash/hash.go lines 272-283). -/
def HashMatrix.Subtract (m n : HashMatrix K) : Except MatrixPanic (HashMatrix K) := do
  ShapeShouldBeSame m.Shape n.Shape
  hashSubtractLoop m n.NonZeros

/-- The inner `for i := 0; i < rows; i++` loop of `(*hash.Matrix).Multiply`
(src/hash/hash.go lines 298-300): accumulate `m.Get(i,j)*element` into
`r[i,k]`. -/
def hashMultiplyInner (m : HashMatrix K) (element : K) (j k : Int) :
    List Int → HashMatrix K → Except MatrixPanic (HashMatrix K)
  | [], r => .ok r
  | i :: rest, r => do
      let a ← r.Get i k
      let b ← m.Get i j
      let r' ← r.Update i k (a + b * element)
      hashMultiplyInner m element j k rest r'

/-- The outer cursor loop of `(*hash.Matrix).Multiply` (src/hash/hash.go
lines 295-301). -/
def hashMultiplyLoop (m : HashMatrix K) (rows : Int) :
    List (K × Int × Int) → HashMatrix K → Except MatrixPanic (HashMatrix K)
  | [], r => .ok r
  | (element, j, k) :: rest, r => do
      let r' ← hashMultiplyInner m element j k (intRange rows) r
      hashMultiplyLoop m rows rest r'

/-- `(*hash.Matrix).Multiply` (src/hash/hash.go lines 285-304). -/
def HashMatrix.Multiply (m n : HashMatrix K) : Except MatrixPanic (HashMatrix K) := do
  ShapeShouldBeMultipliable m.Shape n.Shape
  let rows := m.Rows
  let columns := n.Columns
  let r ← hashZeros rows columns
  hashMultiplyLoop m rows n.NonZeros r

/-- `(*hash.Matrix).Scale` (src/hash/hash.go lines 306-316): multiply
every present entry in place, deleting entries whose product is exactly
zero. -/
def HashMatrix.Scale (m : HashMatrix K) (s : K) : HashMatrix K :=
  { m with elements := m.elements.filterMap fun kv =>
      if kv.2 * s = 0 then none else some (kv.1, kv.2 * s) }

/-- `(*hash.Matrix).Transpose` (src/hash/hash.go lines 318-329): a new
descriptor over the same storage with the opposite rewriter. -/
def HashMatrix.Transpose (m : HashMatrix K) : HashMatrix K :=
  { initialized := true, base := m.base, view := m.view, offset := m.offset,
    elements := m.elements, rewriter := m.rewriter.Transpose }

/-- `(*hash.Matrix).View` (src/hash/hash.go lines 331-351): rewrite the
requested position and extent, compose the offset, validate positivity
and containment, and return a new descriptor over the same storage. -/
def HashMatrix.View (m : HashMatrix K) (row column rows columns : Int) :
    Except MatrixPanic (HashMatrix K) := do
  let rc := m.rewriter.Rewrite row column
  let rcs := m.rewriter.Rewrite rows columns
  let offset : Index := ⟨m.offset.row + rc.1, m.offset.column + rc.2⟩
  let view : MatrixGo.Shape := ⟨rcs.1, rcs.2⟩
  ShapeShouldBePositive rcs.1 rcs.2
  ViewShouldBeInBase m.base view offset
  .ok { initialized := true, base := m.base, view := view, offset := offset,
        elements := m.elements, rewriter := m.rewriter }

/-! ## The dense backend: `src/dense/dense.go` -/

/-- Go slice read `elements[i]` at an integer index (in-range under the
well-formedness invariant). -/
def listGetI (l : List K) (i : Int) : K :=
  l.getD i.toNat 0

/-- Go slice write `elements[i] = v` at an integer index. -/
def listSetI (l : List K) (i : Int) (v : K) : List K :=
  l.set i.toNat v

/-- `dense.denseMatrix` (src/dense/dense.go lines 21-29). -/
structure DenseMatrix (K : Type) where
  base : Shape
  view : Shape
  offset : Index
  rows : Int
  columns : Int
  elements : List K
  rewriter : Rewriter
  deriving DecidableEq

/-- `dense.New` (src/dense/dense.go lines 37-65), uncurried: the shape
validation of `New(rows, columns)` happens before the constructor's
element-count check. -/
def denseNew (rows columns : Int) (elements : List K) :
    Except MatrixPanic (DenseMatrix K) := do
  ShapeShouldBePositive rows columns
  let size := rows * columns
  if (elements.length : Int) ≠ size then .error .InvalidElements
  else
    let shape : Shape := ⟨rows, columns⟩
    .ok { base := shape, view := shape, offset := ⟨0, 0⟩, rows := rows,
          columns := columns, elements := elements, rewriter := .reflect }

/-- `dense.Zeros` (src/dense/dense.go lines 70-72). -/
def denseZeros (rows columns : Int) : Except MatrixPanic (DenseMatrix K) :=
  denseNew rows columns (List.replicate (rows * columns).toNat 0)

/-- `(*denseMatrix).Shape` (src/dense/dense.go lines 173-175). -/
def DenseMatrix.Shape (m : DenseMatrix K) : Int × Int :=
  m.rewriter.Rewrite m.rows m.columns

/-- `(*denseMatrix).Rows`. -/
def DenseMatrix.Rows (m : DenseMatrix K) : Int := m.Shape.1

/-- `(*denseMatrix).Columns`. -/
def DenseMatrix.Columns (m : DenseMatrix K) : Int := m.Shape.2

/-- `(*denseMatrix).Get` (src/dense/dense.go lines 199-207): validate the
logical coordinate against the logical shape, rewrite it, and read the
flat buffer at `row*m.columns + column`. -/
def DenseMatrix.Get (m : DenseMatrix K) (row column : Int) : Except MatrixPanic K := do
  IndexShouldBeInRange m.Shape.1 m.Shape.2 row column
  let rc := m.rewriter.Rewrite row column
  .ok (listGetI m.elements (rc.1 * m.columns + rc.2))

/-- Raw (cursor-side) buffer read: `Get` without the bounds check.  Used
by the cursor models; agrees with `Get` on every valid coordinate. -/
def DenseMatrix.GetF (m : DenseMatrix K) (row column : Int) : K :=
  let rc := m.rewriter.Rewrite row column
  listGetI m.elements (rc.1 * m.columns + rc.2)

/-- `(*denseMatrix).Update` (src/dense/dense.go lines 209-219): same
addressing as `Get`; writes the buffer in place. -/
def DenseMatrix.Update (m : DenseMatrix K) (row column : Int) (element : K) :
    Except MatrixPanic (DenseMatrix K) := do
  IndexShouldBeInRange m.Shape.1 m.Shape.2 row column
  let rc := m.rewriter.Rewrite row column
  .ok { m with elements := listSetI m.elements (rc.1 * m.columns + rc.2) element }

/-- Modelled from the spec (§4.3, the dense cursor implementation file is
absent from the source tree): the `All` cursor visits every logical
(row, column) in row-major order, including zeros, yielding the stored
value. -/
def DenseMatrix.All (m : DenseMatrix K) : List (K × Int × Int) :=
  (allCells m.Rows m.Columns).map fun rc => (m.GetF rc.1 rc.2, rc.1, rc.2)

/-- Modelled from the spec (§4.3, the dense cursor implementation file is
absent from the source tree): the `NonZeros` cursor is a row-major scan
skipping zeros. -/
def DenseMatrix.NonZeros (m : DenseMatrix K) : List (K × Int × Int) :=
  (allCells m.Rows m.Columns).filterMap fun rc =>
    if m.GetF rc.1 rc.2 ≠ 0 then some (m.GetF rc.1 rc.2, rc.1, rc.2) else none

/-- Modelled from the spec (§4.3, the dense cursor implementation file is
absent from the source tree): the `Diagonal` cursor visits the cells
where row = column, 0 ≤ row < min(rows, columns), in order.  (`some`:
unlike the hash backend, `(*denseMatrix).Diagonal` returns a real
cursor, src/dense/dense.go lines 195-197.) -/
def DenseMatrix.Diagonal (m : DenseMatrix K) : Option (List (K × Int × Int)) :=
  some ((intRange (min m.Rows m.Columns)).map fun i => (m.GetF i i, i, i))

/-- The loop body of `(*denseMatrix).Equal` (src/dense/dense.go lines
224-231), iterating the argument's `All` cursor. -/
def denseEqualLoop (m : DenseMatrix K) : List (K × Int × Int) → Except MatrixPanic Bool
  | [] => .ok true
  | (element, row, column) :: rest => do
      let e ← m.Get row column
      if e ≠ element then .ok false else denseEqualLoop m rest

/-- `(*denseMatrix).Equal` (src/dense/dense.go lines 221-234). -/
def DenseMatrix.Equal (m n : DenseMatrix K) : Except MatrixPanic Bool := do
  ShapeShouldBeSame m.Shape n.Shape
  denseEqualLoop m n.All

/-- The loop body of `(*denseMatrix).Add` (src/dense/dense.go lines
239-244). -/
def denseAddLoop : DenseMatrix K → List (K × Int × Int) → Except MatrixPanic (DenseMatrix K)
  | m, [] => .ok m
  | m, (element, row, column) :: rest => do
      let e ← m.Get row column
      let m' ← m.Update row column (e + element)
      denseAddLoop m' rest

/-- `(*denseMatrix).Add` (src/dense/dense.go lines 236-247). -/
def DenseMatrix.Add (m n : DenseMatrix K) : Except MatrixPanic (DenseMatrix K) := do
  ShapeShouldBeSame m.Shape n.Shape
  denseAddLoop m n.NonZeros

/-- The loop body of `(*denseMatrix).Subtract` (src/dense/dense.go lines
252-257). -/
def denseSubtractLoop : DenseMatrix K → List (K × Int × Int) → Except MatrixPanic (DenseMatrix K)
  | m, [] => .ok m
  | m, (element, row, column) :: rest => do
      let e ← m.Get row column
      let m' ← m.Update row column (e - element)
      denseSubtractLoop m' rest

/-- `(*denseMatrix).Subtract` (src/dense/dense.go lines 249-260). -/
def DenseMatrix.Subtract (m n : DenseMatrix K) : Except MatrixPanic (DenseMatrix K) := do
  ShapeShouldBeSame m.Shape n.Shape
  denseSubtractLoop m n.NonZeros

/-- The inner `for i := 0; i < rows; i++` loop of `(*denseMatrix).Multiply`
(src/dense/dense.go lines 275-277). -/
def denseMultiplyInner (m : DenseMatrix K) (element : K) (j k : Int) :
    List Int → DenseMatrix K → Except MatrixPanic (DenseMatrix K)
  | [], r => .ok r
  | i :: rest, r => do
      let a ← r.Get i k
      let b ← m.Get i j
      let r' ← r.Update i k (a + b * element)
      denseMultiplyInner m element j k rest r'

/-- The outer cursor loop of `(*denseMatrix).Multiply` (src/dense/dense.go
lines 272-278). -/
def denseMultiplyLoop (m : DenseMatrix K) (rows : Int) :
    List (K × Int × Int) → DenseMatrix K → Except MatrixPanic (DenseMatrix K)
  | [], r => .ok r
  | (element, j, k) :: rest, r => do
      let r' ← denseMultiplyInner m element j k (intRange rows) r
      denseMultiplyLoop m rows rest r'

/-- `(*denseMatrix).Multiply` (src/dense/dense.go lines 262-281). -/
def DenseMatrix.Multiply (m n : DenseMatrix K) : Except MatrixPanic (DenseMatrix K) := do
  ShapeShouldBeMultipliable m.Shape n.Shape
  let rows := m.Rows
  let columns := n.Columns
  let r ← denseZeros rows columns
  denseMultiplyLoop m rows n.NonZeros r

/-- `(*denseMatrix).Scalar` (src/dense/dense.go lines 283-289). -/
def DenseMatrix.Scalar (m : DenseMatrix K) (s : K) : DenseMatrix K :=
  { m with elements := m.elements.map fun element => element * s }

/-- `(*denseMatrix).Transpose` (src/dense/dense.go lines 291-303). -/
def DenseMatrix.Transpose (m : DenseMatrix K) : DenseMatrix K :=
  { base := m.base, view := m.view, offset := m.offset, rows := m.rows,
    columns := m.columns, elements := m.elements,
    rewriter := m.rewriter.Transpose }

/-- The scan of `(*denseMatrix).Max` (src/dense/dense.go lines 306-316):
fold over the flat buffer keeping the running maximum and its index.  The
`math.Inf(-1)` start value is modelled by the `none` state (no finite
element beats it, so the first element always replaces it); `if max >= c
continue` keeps the incumbent on ties. -/
def maxLoop : List K → Nat → Option (K × Nat) → Option (K × Nat)
  | [], _, acc => acc
  | c :: rest, i, acc =>
      match acc with
      | none => maxLoop rest (i + 1) (some (c, i))
      | some (mx, idx) =>
          if c ≤ mx then maxLoop rest (i + 1) (some (mx, idx))
          else maxLoop rest (i + 1) (some (c, i))

/-- The scan of `(*denseMatrix).Min` (src/dense/dense.go lines 324-334),
symmetrically (`math.Inf(0)` start, `if min <= c continue`). -/
def minLoop : List K → Nat → Option (K × Nat) → Option (K × Nat)
  | [], _, acc => acc
  | c :: rest, i, acc =>
      match acc with
      | none => minLoop rest (i + 1) (some (c, i))
      | some (mn, idx) =>
          if mn ≤ c then minLoop rest (i + 1) (some (mn, idx))
          else minLoop rest (i + 1) (some (c, i))

/-- `(*denseMatrix).convertToRowColumn` (src/dense/dense.go lines
341-348): converts a flat buffer index using the *logical* column count
(`m.Columns()`), with Go's truncated integer division. -/
def DenseMatrix.convertToRowColumn (m : DenseMatrix K) (index : Int) : Int × Int :=
  let columns := m.Columns
  let row := Int.tdiv index columns
  let column := index - row * columns
  (row, column)

/-- `(*denseMatrix).Max` (src/dense/dense.go lines 305-321). -/
def DenseMatrix.Max (m : DenseMatrix K) : K × Int × Int :=
  match maxLoop m.elements 0 none with
  | none => (0, 0, 0)
  | some (mx, index) =>
      let rc := m.convertToRowColumn (index : Int)
      (mx, rc.1, rc.2)

/-- `(*denseMatrix).Min` (src/dense/dense.go lines 323-339). -/
def DenseMatrix.Min (m : DenseMatrix K) : K × Int × Int :=
  match minLoop m.elements 0 none with
  | none => (0, 0, 0)
  | some (mn, index) =>
      let rc := m.convertToRowColumn (index : Int)
      (mn, rc.1, rc.2)

/-! ## Well-formedness invariants -/

/-- The sparse representation invariant (spec §3/§4.5): every stored
entry holds a non-zero value, so that the key set equals exactly the set
of coordinates whose stored value is non-zero. -/
def HashMatrix.NonZeroInv (m : HashMatrix K) : Prop :=
  ∀ kv ∈ m.elements, kv.2 ≠ 0

instance (m : HashMatrix K) : Decidable m.NonZeroInv := by
  unfold HashMatrix.NonZeroInv; infer_instance

/-- The write `Update` performs once its validation has passed. -/
def DenseMatrix.updF (m : DenseMatrix K) (row column : Int) (element : K) : DenseMatrix K :=
  let rc := m.rewriter.Rewrite row column
  { m with elements := listSetI m.elements (rc.1 * m.columns + rc.2) element }

/-- The write `Update` performs once its validation has passed. -/
def HashMatrix.updF (m : HashMatrix K) (row column : Int) (element : K) : HashMatrix K :=
  let rc := m.rewriter.Rewrite row column
  if element = 0 then { m with elements := mapErase m.elements (m.key rc.1 rc.2) }
  else { m with elements := mapInsert m.elements (m.key rc.1 rc.2) element }

/-- The total value a cursor list contributes at one coordinate. -/
def entryVal (L : List (K × Int × Int)) (rc : Int × Int) : K :=
  (L.map fun t => if t.2 = rc then t.1 else 0).sum

/-- The structural invariant every dense matrix reachable from the
constructors satisfies: positive dimensions and a fully materialized
buffer of exactly `rows*columns` cells. -/
def DenseMatrix.Wf (m : DenseMatrix K) : Prop :=
  0 < m.rows ∧ 0 < m.columns ∧ (m.elements.length : Int) = m.rows * m.columns

instance (m : DenseMatrix K) : Decidable m.Wf := by
  unfold DenseMatrix.Wf; infer_instance

/-- The structural invariant every hash matrix reachable from the
constructors satisfies: positive base and view dimensions, a non-negative
offset, view containment, pairwise distinct map keys, and keys inside the
base extent. -/
def HashMatrix.Wf (m : HashMatrix K) : Prop :=
  0 < m.base.rows ∧ 0 < m.base.columns ∧
  0 < m.view.rows ∧ 0 < m.view.columns ∧
  0 ≤ m.offset.row ∧ 0 ≤ m.offset.column ∧
  m.offset.row + m.view.rows ≤ m.base.rows ∧
  m.offset.column + m.view.columns ≤ m.base.columns ∧
  (m.elements.map Prod.fst).Nodup ∧
  ∀ kv ∈ m.elements, 0 ≤ kv.1 ∧ kv.1 < m.base.rows * m.base.columns

instance (m : HashMatrix K) : Decidable m.Wf := by
  unfold HashMatrix.Wf; infer_instance

end Scalar

/-! ## Basic lemmas -/

/-- A logical (row, column) coordinate is inside a logical shape. -/
def ValidIdx (s : Int × Int) (row column : Int) : Prop :=
  0 ≤ row ∧ row < s.1 ∧ 0 ≤ column ∧ column < s.2

instance (s : Int × Int) (row column : Int) : Decidable (ValidIdx s row column) := by
  unfold ValidIdx; infer_instance

theorem Rewriter.Transpose_Transpose (r : Rewriter) : r.Transpose.Transpose = r := by
  cases r <;> rfl

theorem Rewriter.Rewrite_Rewrite (r : Rewriter) (a b : Int) :
    r.Rewrite (r.Rewrite a b).1 (r.Rewrite a b).2 = (a, b) := by
  cases r <;> rfl

theorem IndexShouldBeInRange_eq_ok {rows columns row column : Int}
    (h : 0 ≤ row ∧ row < rows ∧ 0 ≤ column ∧ column < columns) :
    IndexShouldBeInRange rows columns row column = .ok () := by
  simp [IndexShouldBeInRange, h]

theorem IndexShouldBeInRange_eq_error {rows columns row column : Int}
    (h : ¬(0 ≤ row ∧ row < rows ∧ 0 ≤ column ∧ column < columns)) :
    IndexShouldBeInRange rows columns row column = .error .OutOfRange := by
  simp [IndexShouldBeInRange, h]

theorem ShapeShouldBePositive_eq_ok {rows columns : Int}
    (h : 0 < rows) (h' : 0 < columns) :
    ShapeShouldBePositive rows columns = .ok () := by
  simp [ShapeShouldBePositive, h, h']

theorem ShapeShouldBeSame_eq_ok {s t : Int × Int} (h : s = t) :
    ShapeShouldBeSame s t = .ok () := by
  simp [ShapeShouldBeSame, h]

theorem ShapeShouldBeSame_eq_error {s t : Int × Int} (h : s ≠ t) :
    ShapeShouldBeSame s t = .error .DifferentSize := by
  simp [ShapeShouldBeSame, h]

theorem mem_intRange {n i : Int} : i ∈ intRange n ↔ 0 ≤ i ∧ i < n := by
  constructor
  · intro h
    rw [intRange] at h
    obtain ⟨a, ha, he⟩ := List.mem_map.mp h
    have ha' := List.mem_range.mp ha
    omega
  · intro h
    rw [intRange]
    refine List.mem_map.mpr ⟨i.toNat, List.mem_range.mpr (by omega), by omega⟩

theorem intRange_nodup (n : Int) : (intRange n).Nodup :=
  List.Nodup.map (fun a b h => by exact_mod_cast h) (List.nodup_range n.toNat)

theorem mem_allCells {R C : Int} {rc : Int × Int} :
    rc ∈ allCells R C ↔ 0 ≤ rc.1 ∧ rc.1 < R ∧ 0 ≤ rc.2 ∧ rc.2 < C := by
  obtain ⟨r, c⟩ := rc
  simp only [allCells, List.mem_flatMap, List.mem_map, Prod.mk.injEq]
  constructor
  · rintro ⟨a, ha, b, hb, rfl, rfl⟩
    exact ⟨(mem_intRange.mp ha).1, (mem_intRange.mp ha).2,
      (mem_intRange.mp hb).1, (mem_intRange.mp hb).2⟩
  · rintro ⟨h1, h2, h3, h4⟩
    exact ⟨r, mem_intRange.mpr ⟨h1, h2⟩, c, mem_intRange.mpr ⟨h3, h4⟩, rfl, rfl⟩

theorem allCells_nodup (R C : Int) : (allCells R C).Nodup := by
  rw [allCells, List.nodup_flatMap]
  constructor
  · intro r _
    exact List.Nodup.map
      (fun a b h => by simpa using congrArg Prod.snd h) (intRange_nodup C)
  · have hpw : List.Pairwise (fun a b : Int => a ≠ b) (intRange R) := intRange_nodup R
    refine hpw.imp ?_
    intro a b hab x hx hx'
    simp only [List.mem_map] at hx hx'
    obtain ⟨c, _, rfl⟩ := hx
    obtain ⟨c', _, h⟩ := hx'
    exact hab (by simpa using (congrArg Prod.fst h).symm)

section ScalarLemmas

variable {K : Type} [LinearOrderedCommRing K]

theorem sum_map_ite_eq_zero {α : Type} [DecidableEq α] {l : List α} {x : α → K} {a : α}
    (ha : a ∉ l) : (l.map fun b => if b = a then x b else 0).sum = 0 := by
  induction l with
  | nil => rfl
  | cons hd tl ih =>
      simp only [List.mem_cons, not_or] at ha
      have hne : hd ≠ a := fun h => ha.1 h.symm
      simp [hne, ih ha.2]

theorem sum_map_ite_eq_of_nodup {α : Type} [DecidableEq α] {l : List α} {x : α → K} {a : α}
    (hl : l.Nodup) (ha : a ∈ l) :
    (l.map fun b => if b = a then x b else 0).sum = x a := by
  induction l with
  | nil => cases ha
  | cons hd tl ih =>
      rcases List.mem_cons.mp ha with h | h
      · subst h
        simp [sum_map_ite_eq_zero (x := x) (List.nodup_cons.mp hl).1]
      · have : hd ≠ a := fun hh => (List.nodup_cons.mp hl).1 (hh ▸ h)
        simp [this, ih (List.nodup_cons.mp hl).2 h]

theorem sum_map_flatMap {α β : Type} (l : List α) (f : α → List β) (g : β → K) :
    ((l.flatMap f).map g).sum = (l.map fun a => ((f a).map g).sum).sum := by
  induction l with
  | nil => rfl
  | cons hd tl ih => simp [List.flatMap_cons, ih]

/-- Summing a function of the entries of a "non-zero cursor" list `L`
equals summing the same function over all cells, provided entries carry
the cell's value, cells missing from `L` hold zero, and the function
vanishes on zero values. -/
theorem sum_nonzeros_eq {cells : List (Int × Int)} {val : Int × Int → K}
    {L : List (K × Int × Int)} {f : K → Int → Int → K}
    (hcells : cells.Nodup) (hLco : (L.map fun t => t.2).Nodup)
    (hmem : ∀ t ∈ L, t.2 ∈ cells ∧ t.1 = val t.2)
    (hcomp : ∀ rc ∈ cells, rc ∈ L.map (fun t => t.2) ∨ val rc = 0)
    (hf : ∀ r c, f 0 r c = 0) :
    (L.map fun t => f t.1 t.2.1 t.2.2).sum
      = (cells.map fun rc => f (val rc) rc.1 rc.2).sum := by
  classical
  -- Split the cells into those visited by `L` and the rest.
  have hperm := List.filter_append_perm (fun rc => decide (rc ∈ L.map fun t => t.2)) cells
  have hsum := (hperm.map fun rc => f (val rc) rc.1 rc.2).sum_eq
  rw [← hsum, List.map_append, List.sum_append]
  have hzero : ((cells.filter fun rc => !decide (rc ∈ L.map fun t => t.2)).map
      fun rc => f (val rc) rc.1 rc.2).sum = 0 := by
    have : ∀ rc ∈ cells.filter fun rc => !decide (rc ∈ L.map fun t => t.2),
        f (val rc) rc.1 rc.2 = 0 := by
      intro rc hrc
      rw [List.mem_filter] at hrc
      rcases hcomp rc hrc.1 with h | h
      · simp [h] at hrc
      · rw [h]; exact hf _ _
    calc ((cells.filter fun rc => !decide (rc ∈ L.map fun t => t.2)).map
            fun rc => f (val rc) rc.1 rc.2).sum
        = ((cells.filter fun rc => !decide (rc ∈ L.map fun t => t.2)).map
            fun _ => (0 : K)).sum := by
          exact congrArg List.sum (List.map_congr_left this)
      _ = 0 := by simp
  rw [hzero, add_zero]
  -- The visited part is a permutation of `L`'s coordinate list.
  have hpermL : (cells.filter fun rc => decide (rc ∈ L.map fun t => t.2)).Perm
      (L.map fun t => t.2) := by
    rw [List.perm_ext_iff_of_nodup (hcells.filter _) hLco]
    intro rc
    rw [List.mem_filter]
    constructor
    · intro h; simpa using h.2
    · intro h
      refine ⟨?_, by simpa using h⟩
      obtain ⟨t, ht, rfl⟩ := List.mem_map.mp h
      exact (hmem t ht).1
  have := (hpermL.map fun rc => f (val rc) rc.1 rc.2).sum_eq
  rw [this, List.map_map]
  have : ∀ t ∈ L, ((fun rc => f (val rc) rc.1 rc.2) ∘ fun t => t.2) t
      = (fun t => f t.1 t.2.1 t.2.2) t := by
    intro t ht
    simp only [Function.comp]
    rw [← (hmem t ht).2]
  exact (List.map_congr_left this ▸ rfl)

theorem entryVal_nil (rc : Int × Int) : entryVal ([] : List (K × Int × Int)) rc = 0 :=
  rfl

theorem entryVal_cons (t : K × Int × Int) (L : List (K × Int × Int)) (rc : Int × Int) :
    entryVal (t :: L) rc = (if t.2 = rc then t.1 else 0) + entryVal L rc := by
  simp [entryVal]

theorem entryVal_eq_zero {L : List (K × Int × Int)} {rc : Int × Int}
    (h : ∀ t ∈ L, t.2 ≠ rc) : entryVal L rc = 0 := by
  induction L with
  | nil => rfl
  | cons hd tl ih =>
      rw [entryVal_cons, ih fun t ht => h t (List.mem_cons.mpr (Or.inr ht))]
      simp [h hd (List.mem_cons.mpr (Or.inl rfl))]

theorem entryVal_eq_of_mem {L : List (K × Int × Int)} {t : K × Int × Int}
    (hL : (L.map fun t => t.2).Nodup) (ht : t ∈ L) :
    entryVal L t.2 = t.1 := by
  induction L with
  | nil => cases ht
  | cons hd tl ih =>
      rw [entryVal_cons]
      rcases List.mem_cons.mp ht with h | h
      · subst h
        have hnot : ∀ u ∈ tl, u.2 ≠ t.2 := by
          intro u hu he
          have : t.2 ∈ tl.map fun t => t.2 := by
            rw [← he]; exact List.mem_map.mpr ⟨u, hu, rfl⟩
          exact (List.nodup_cons.mp (by simpa using hL)).1 this
        simp [entryVal_eq_zero hnot]
      · have hne : hd.2 ≠ t.2 := by
          intro he
          have : t.2 ∈ tl.map fun t => t.2 := List.mem_map.mpr ⟨t, h, rfl⟩
          rw [← he] at this
          exact (List.nodup_cons.mp (by simpa using hL)).1 this
        rw [ih (by simpa using (List.nodup_cons.mp (by simpa using hL)).2) h]
        simp [hne]

/-! ## Go slice indexing lemmas -/

theorem length_listSetI (l : List K) (i : Int) (v : K) :
    (listSetI l i v).length = l.length :=
  List.length_set ..

theorem listGetI_setI_self {l : List K} {i : Int} (h0 : 0 ≤ i) (h : i < (l.length : Int))
    (v : K) : listGetI (listSetI l i v) i = v := by
  unfold listGetI listSetI
  have hi : i.toNat < l.length := by omega
  rw [List.getD_eq_getElem _ _ (by simpa [List.length_set] using hi),
    List.getElem_set_self]

theorem listGetI_setI_ne {l : List K} {i j : Int} (h : i.toNat ≠ j.toNat) (v : K) :
    listGetI (listSetI l i v) j = listGetI l j := by
  unfold listGetI listSetI
  by_cases hj : j.toNat < l.length
  · rw [List.getD_eq_getElem _ _ (by simpa [List.length_set] using hj),
      List.getD_eq_getElem _ _ hj, List.getElem_set_ne h]
  · rw [List.getD_eq_default _ _ (by simpa [List.length_set] using le_of_not_lt hj),
      List.getD_eq_default _ _ (le_of_not_lt hj)]

/-! ## Row-major index arithmetic -/

theorem rowmajor_bounds {R C r c : Int} (hr : 0 ≤ r) (hr' : r < R) (hc : 0 ≤ c)
    (hc' : c < C) : 0 ≤ r * C + c ∧ r * C + c < R * C := by
  have hC : 0 < C := lt_of_le_of_lt hc hc'
  have h1 : (r + 1) * C ≤ R * C := mul_le_mul_of_nonneg_right (by omega) (le_of_lt hC)
  have h2 : (r + 1) * C = r * C + C := by ring
  have h3 : 0 ≤ r * C := mul_nonneg hr (le_of_lt hC)
  omega

theorem rowmajor_inj {C r c r' c' : Int} (hc : 0 ≤ c) (hc' : c < C) (hc2 : 0 ≤ c')
    (hc2' : c' < C) (h : r * C + c = r' * C + c') : r = r' ∧ c = c' := by
  have hC : 0 < C := lt_of_le_of_lt hc hc'
  have e1 : (r * C + c) % C = c := by
    rw [show r * C + c = c + C * r by ring, Int.add_mul_emod_self_left,
      Int.emod_eq_of_lt hc hc']
  have e2 : (r' * C + c') % C = c' := by
    rw [show r' * C + c' = c' + C * r' by ring, Int.add_mul_emod_self_left,
      Int.emod_eq_of_lt hc2 hc2']
  have hcc : c = c' := by rw [← e1, ← e2, h]
  refine ⟨?_, hcc⟩
  have : r * C = r' * C := by omega
  exact mul_right_cancel₀ (ne_of_gt hC) this

/-! ## Dense backend lemmas -/

theorem DenseMatrix.shape_eq (m : DenseMatrix K) : m.Shape = (m.Rows, m.Columns) :=
  rfl

theorem DenseMatrix.rewrite_valid_dense {m : DenseMatrix K} {row column : Int}
    (h : ValidIdx m.Shape row column) :
    0 ≤ (m.rewriter.Rewrite row column).1 ∧ (m.rewriter.Rewrite row column).1 < m.rows ∧
    0 ≤ (m.rewriter.Rewrite row column).2 ∧ (m.rewriter.Rewrite row column).2 < m.columns := by
  obtain ⟨h1, h2, h3, h4⟩ := h
  rw [DenseMatrix.Shape] at h2 h4
  cases hr : m.rewriter <;> rw [hr] at h2 h4 <;>
    simp only [Rewriter.Rewrite] at h2 h4 ⊢
  · exact ⟨h1, h2, h3, h4⟩
  · exact ⟨h3, h4, h1, h2⟩

theorem DenseMatrix.Get_eq_ok_dense {m : DenseMatrix K} {row column : Int}
    (h : ValidIdx m.Shape row column) :
    m.Get row column = .ok (m.GetF row column) := by
  obtain ⟨h1, h2, h3, h4⟩ := h
  rw [DenseMatrix.Get, DenseMatrix.GetF]
  rw [IndexShouldBeInRange_eq_ok ⟨h1, h2, h3, h4⟩]
  rfl

theorem DenseMatrix.Get_eq_error_dense {m : DenseMatrix K} {row column : Int}
    (h : ¬ValidIdx m.Shape row column) :
    m.Get row column = .error .OutOfRange := by
  rw [DenseMatrix.Get, IndexShouldBeInRange_eq_error (by exact fun hh => h hh)]
  rfl

theorem DenseMatrix.Update_eq_ok_dense {m : DenseMatrix K} {row column : Int}
    (h : ValidIdx m.Shape row column) (element : K) :
    m.Update row column element = .ok (m.updF row column element) := by
  obtain ⟨h1, h2, h3, h4⟩ := h
  rw [DenseMatrix.Update, DenseMatrix.updF]
  rw [IndexShouldBeInRange_eq_ok ⟨h1, h2, h3, h4⟩]
  rfl

theorem DenseMatrix.Update_eq_error_dense {m : DenseMatrix K} {row column : Int}
    (h : ¬ValidIdx m.Shape row column) (element : K) :
    m.Update row column element = .error .OutOfRange := by
  rw [DenseMatrix.Update, IndexShouldBeInRange_eq_error (by exact fun hh => h hh)]
  rfl

theorem DenseMatrix.updF_fields_dense (m : DenseMatrix K) (row column : Int) (element : K) :
    (m.updF row column element).rows = m.rows ∧
    (m.updF row column element).columns = m.columns ∧
    (m.updF row column element).rewriter = m.rewriter ∧
    (m.updF row column element).Shape = m.Shape := by
  exact ⟨rfl, rfl, rfl, rfl⟩

theorem DenseMatrix.Wf_updF_dense {m : DenseMatrix K} (hm : m.Wf) (row column : Int)
    (element : K) : (m.updF row column element).Wf := by
  obtain ⟨h1, h2, h3⟩ := hm
  exact ⟨h1, h2, by rw [DenseMatrix.updF]; simpa [length_listSetI] using h3⟩

/-- The physical flat-buffer index addressed by a valid logical
coordinate is inside the buffer. -/
theorem DenseMatrix.physIdx_bounds {m : DenseMatrix K} (hm : m.Wf) {row column : Int}
    (h : ValidIdx m.Shape row column) :
    0 ≤ (m.rewriter.Rewrite row column).1 * m.columns + (m.rewriter.Rewrite row column).2 ∧
    (m.rewriter.Rewrite row column).1 * m.columns + (m.rewriter.Rewrite row column).2
      < (m.elements.length : Int) := by
  obtain ⟨hp1, hp2, hp3, hp4⟩ := DenseMatrix.rewrite_valid_dense h
  have := rowmajor_bounds hp1 hp2 hp3 hp4
  exact ⟨this.1, by rw [hm.2.2]; exact this.2⟩

theorem DenseMatrix.GetF_updF_self_dense {m : DenseMatrix K} (hm : m.Wf) {row column : Int}
    (h : ValidIdx m.Shape row column) (element : K) :
    (m.updF row column element).GetF row column = element := by
  obtain ⟨hb1, hb2⟩ := DenseMatrix.physIdx_bounds hm h
  rw [DenseMatrix.GetF, DenseMatrix.updF]
  exact listGetI_setI_self hb1 hb2 element

theorem DenseMatrix.GetF_updF_ne_dense {m : DenseMatrix K} (hm : m.Wf) {row column r' c' : Int}
    (h : ValidIdx m.Shape row column) (h' : ValidIdx m.Shape r' c')
    (hne : (row, column) ≠ (r', c')) (element : K) :
    (m.updF row column element).GetF r' c' = m.GetF r' c' := by
  obtain ⟨hb1, hb2⟩ := DenseMatrix.physIdx_bounds hm h
  obtain ⟨hc1, hc2⟩ := DenseMatrix.physIdx_bounds hm h'
  obtain ⟨hp1, hp2, hp3, hp4⟩ := DenseMatrix.rewrite_valid_dense h
  obtain ⟨hq1, hq2, hq3, hq4⟩ := DenseMatrix.rewrite_valid_dense h'
  have hidxne : (m.rewriter.Rewrite row column).1 * m.columns
        + (m.rewriter.Rewrite row column).2
      ≠ (m.rewriter.Rewrite r' c').1 * m.columns + (m.rewriter.Rewrite r' c').2 := by
    intro hidx
    apply hne
    obtain ⟨e1, e2⟩ := rowmajor_inj hp3 hp4 hq3 hq4 hidx
    have heq : m.rewriter.Rewrite row column = m.rewriter.Rewrite r' c' :=
      Prod.ext_iff.mpr ⟨e1, e2⟩
    cases hr : m.rewriter <;> rw [hr] at heq <;>
      simpa [Rewriter.Rewrite, Prod.ext_iff, and_comm] using heq
  dsimp only [DenseMatrix.GetF, DenseMatrix.updF]
  exact listGetI_setI_ne (by omega) element

/-! ## Map primitive lemmas -/

theorem mapLookup_insert_self (l : List (Int × K)) (k : Int) (v : K) :
    mapLookup (mapInsert l k v) k = some v := by
  induction l with
  | nil => simp [mapInsert, mapLookup]
  | cons hd tl ih =>
      obtain ⟨k0, v0⟩ := hd
      by_cases h : k0 = k <;> simp [mapInsert, mapLookup, h, ih]

theorem mapLookup_insert_ne (l : List (Int × K)) {k k' : Int} (h : k ≠ k') (v : K) :
    mapLookup (mapInsert l k v) k' = mapLookup l k' := by
  induction l with
  | nil => simp [mapInsert, mapLookup, h]
  | cons hd tl ih =>
      obtain ⟨k0, v0⟩ := hd
      by_cases h0 : k0 = k
      · subst h0; simp [mapInsert, mapLookup, h, Ne.symm h]
      · simp only [mapInsert, if_neg h0, mapLookup]
        by_cases h1 : k0 = k' <;> simp [h1, ih]

theorem mapErase_sublist (l : List (Int × K)) (k : Int) : (mapErase l k).Sublist l := by
  induction l with
  | nil => simp [mapErase]
  | cons hd tl ih =>
      obtain ⟨k0, v0⟩ := hd
      by_cases h : k0 = k
      · simpa [mapErase, h] using List.sublist_cons_self ..
      · simpa [mapErase, h] using ih

theorem mapLookup_eq_none_iff {l : List (Int × K)} {k : Int} :
    mapLookup l k = none ↔ k ∉ l.map Prod.fst := by
  induction l with
  | nil => simp [mapLookup]
  | cons hd tl ih =>
      obtain ⟨k0, v0⟩ := hd
      rw [List.map_cons, List.mem_cons]
      by_cases h : k0 = k
      · subst h; simp [mapLookup]
      · simp only [mapLookup, if_neg h, ih]
        constructor
        · intro hk hor
          rcases hor with h1 | h1
          · exact h h1.symm
          · exact hk h1
        · intro hk h1
          exact hk (Or.inr h1)

theorem mapLookup_erase_self {l : List (Int × K)} (hl : (l.map Prod.fst).Nodup) (k : Int) :
    mapLookup (mapErase l k) k = none := by
  induction l with
  | nil => simp [mapErase, mapLookup]
  | cons hd tl ih =>
      obtain ⟨k0, v0⟩ := hd
      simp only [List.map_cons, List.nodup_cons] at hl
      by_cases h : k0 = k
      · subst h
        simp only [mapErase, if_pos rfl]
        exact mapLookup_eq_none_iff.mpr hl.1
      · simp [mapErase, mapLookup, h, ih hl.2]

theorem mapLookup_erase_ne (l : List (Int × K)) {k k' : Int} (h : k ≠ k') :
    mapLookup (mapErase l k) k' = mapLookup l k' := by
  induction l with
  | nil => rfl
  | cons hd tl ih =>
      obtain ⟨k0, v0⟩ := hd
      by_cases h0 : k0 = k
      · rw [show mapErase ((k0, v0) :: tl) k = tl by simp [mapErase, h0],
          show mapLookup ((k0, v0) :: tl) k' = mapLookup tl k' by
            simp [mapLookup, show k0 ≠ k' by omega]]
      · simp only [mapErase, if_neg h0, mapLookup]
        by_cases h1 : k0 = k' <;> simp [h1, ih]

theorem mem_mapInsert {l : List (Int × K)} {k : Int} {v : K} {kv : Int × K}
    (h : kv ∈ mapInsert l k v) : kv = (k, v) ∨ kv ∈ l := by
  induction l with
  | nil => simpa [mapInsert] using h
  | cons hd tl ih =>
      obtain ⟨k0, v0⟩ := hd
      by_cases h0 : k0 = k
      · subst h0
        rcases List.mem_cons.mp (by simpa [mapInsert] using h) with h1 | h1
        · exact Or.inl (by simpa using h1)
        · exact Or.inr (List.mem_cons.mpr (Or.inr h1))
      · rcases List.mem_cons.mp (by simpa [mapInsert, h0] using h) with h1 | h1
        · exact Or.inr (List.mem_cons.mpr (Or.inl h1))
        · rcases ih h1 with h2 | h2
          · exact Or.inl h2
          · exact Or.inr (List.mem_cons.mpr (Or.inr h2))

theorem mapInsert_keys_nodup {l : List (Int × K)} (hl : (l.map Prod.fst).Nodup)
    (k : Int) (v : K) : ((mapInsert l k v).map Prod.fst).Nodup := by
  induction l with
  | nil => simp [mapInsert]
  | cons hd tl ih =>
      obtain ⟨k0, v0⟩ := hd
      simp only [List.map_cons, List.nodup_cons] at hl
      by_cases h0 : k0 = k
      · subst h0
        have he : mapInsert ((k0, v0) :: tl) k0 v = (k0, v) :: tl := by simp [mapInsert]
        rw [he, List.map_cons, List.nodup_cons]
        exact ⟨hl.1, hl.2⟩
      · simp only [mapInsert, if_neg h0, List.map_cons, List.nodup_cons]
        refine ⟨?_, ih hl.2⟩
        intro hmem
        obtain ⟨kv, hkv, hfst⟩ := List.mem_map.mp hmem
        rcases mem_mapInsert hkv with h1 | h1
        · exact h0 (Eq.symm (by rw [h1] at hfst; simpa using hfst))
        · exact hl.1 (List.mem_map.mpr ⟨kv, h1, hfst⟩)

theorem mapLookup_eq_some_of_mem {l : List (Int × K)} (hl : (l.map Prod.fst).Nodup)
    {kv : Int × K} (h : kv ∈ l) : mapLookup l kv.1 = some kv.2 := by
  induction l with
  | nil => cases h
  | cons hd tl ih =>
      obtain ⟨k0, v0⟩ := hd
      simp only [List.map_cons, List.nodup_cons] at hl
      rcases List.mem_cons.mp h with h1 | h1
      · subst h1; simp [mapLookup]
      · have : k0 ≠ kv.1 := by
          intro hh
          exact hl.1 (List.mem_map.mpr ⟨kv, h1, hh.symm⟩)
        simp [mapLookup, this, ih hl.2 h1]

theorem mem_of_mapLookup_eq_some {l : List (Int × K)} {k : Int} {v : K}
    (h : mapLookup l k = some v) : (k, v) ∈ l := by
  induction l with
  | nil => simp [mapLookup] at h
  | cons hd tl ih =>
      obtain ⟨k0, v0⟩ := hd
      by_cases h0 : k0 = k
      · subst h0
        have h' : v0 = v := by simpa [mapLookup] using h
        rw [← h']
        exact List.mem_cons.mpr (Or.inl rfl)
      · simp only [mapLookup, if_neg h0] at h
        exact List.mem_cons.mpr (Or.inr (ih h))

/-! ## Hash backend lemmas -/

theorem HashMatrix.updF_fields_hash (m : HashMatrix K) (row column : Int) (element : K) :
    (m.updF row column element).base = m.base ∧
    (m.updF row column element).view = m.view ∧
    (m.updF row column element).offset = m.offset ∧
    (m.updF row column element).rewriter = m.rewriter ∧
    (m.updF row column element).Shape = m.Shape := by
  unfold HashMatrix.updF
  split <;> exact ⟨rfl, rfl, rfl, rfl, rfl⟩

theorem HashMatrix.rewrite_valid_hash {m : HashMatrix K} {row column : Int}
    (h : ValidIdx m.Shape row column) :
    0 ≤ (m.rewriter.Rewrite row column).1 ∧
    (m.rewriter.Rewrite row column).1 < m.view.rows ∧
    0 ≤ (m.rewriter.Rewrite row column).2 ∧
    (m.rewriter.Rewrite row column).2 < m.view.columns := by
  obtain ⟨h1, h2, h3, h4⟩ := h
  rw [HashMatrix.Shape] at h2 h4
  cases hr : m.rewriter <;> rw [hr] at h2 h4 <;>
    simp only [Rewriter.Rewrite] at h2 h4 ⊢
  · exact ⟨h1, h2, h3, h4⟩
  · exact ⟨h3, h4, h1, h2⟩

theorem HashMatrix.Get_eq_ok_hash {m : HashMatrix K} {row column : Int}
    (h : ValidIdx m.Shape row column) :
    m.Get row column = .ok (m.GetF row column) := by
  obtain ⟨h1, h2, h3, h4⟩ := HashMatrix.rewrite_valid_hash h
  rw [HashMatrix.Get, HashMatrix.GetF]
  rw [IndexShouldBeInRange_eq_ok ⟨h1, h2, h3, h4⟩]
  cases hl : mapLookup m.elements (m.key (m.rewriter.Rewrite row column).1
      (m.rewriter.Rewrite row column).2) <;> simp only [hl] <;> rfl

theorem HashMatrix.Get_eq_error_hash {m : HashMatrix K} {row column : Int}
    (h : ¬ValidIdx m.Shape row column) :
    m.Get row column = .error .OutOfRange := by
  have h' : ¬(0 ≤ (m.rewriter.Rewrite row column).1 ∧
      (m.rewriter.Rewrite row column).1 < m.view.rows ∧
      0 ≤ (m.rewriter.Rewrite row column).2 ∧
      (m.rewriter.Rewrite row column).2 < m.view.columns) := by
    intro hh
    apply h
    rw [ValidIdx, HashMatrix.Shape]
    cases hr : m.rewriter <;> rw [hr] at hh <;>
      simp only [Rewriter.Rewrite] at hh ⊢ <;> tauto
  rw [HashMatrix.Get, IndexShouldBeInRange_eq_error h']
  rfl

theorem HashMatrix.Update_eq_ok_hash {m : HashMatrix K} {row column : Int}
    (h : ValidIdx m.Shape row column) (element : K) :
    m.Update row column element = .ok (m.updF row column element) := by
  obtain ⟨h1, h2, h3, h4⟩ := HashMatrix.rewrite_valid_hash h
  rw [HashMatrix.Update, HashMatrix.updF]
  rw [IndexShouldBeInRange_eq_ok ⟨h1, h2, h3, h4⟩]
  by_cases he : element = 0 <;> simp only [he, if_pos, if_neg, ite_true, ite_false,
    reduceIte] <;> rfl

theorem HashMatrix.Update_eq_error_hash {m : HashMatrix K} {row column : Int}
    (h : ¬ValidIdx m.Shape row column) (element : K) :
    m.Update row column element = .error .OutOfRange := by
  have h' : ¬(0 ≤ (m.rewriter.Rewrite row column).1 ∧
      (m.rewriter.Rewrite row column).1 < m.view.rows ∧
      0 ≤ (m.rewriter.Rewrite row column).2 ∧
      (m.rewriter.Rewrite row column).2 < m.view.columns) := by
    intro hh
    apply h
    rw [ValidIdx, HashMatrix.Shape]
    cases hr : m.rewriter <;> rw [hr] at hh <;>
      simp only [Rewriter.Rewrite] at hh ⊢ <;> tauto
  rw [HashMatrix.Update, IndexShouldBeInRange_eq_error h']
  rfl

theorem HashMatrix.key_bounds {m : HashMatrix K} (hm : m.Wf) {a b : Int}
    (ha : 0 ≤ a) (ha' : a < m.view.rows) (hb : 0 ≤ b) (hb' : b < m.view.columns) :
    0 ≤ m.key a b ∧ m.key a b < m.base.rows * m.base.columns := by
  obtain ⟨w1, w2, w3, w4, w5, w6, w7, w8, w9, w10⟩ := hm
  have h := rowmajor_bounds (R := m.base.rows) (C := m.base.columns)
    (r := a + m.offset.row) (c := b + m.offset.column)
    (by omega) (by omega) (by omega) (by omega)
  rw [HashMatrix.key]
  constructor
  · have : (a + m.offset.row) * m.base.columns + (b + m.offset.column)
        = (a + m.offset.row) * m.base.columns + b + m.offset.column := by ring
    omega
  · have : (a + m.offset.row) * m.base.columns + (b + m.offset.column)
        = (a + m.offset.row) * m.base.columns + b + m.offset.column := by ring
    omega

theorem HashMatrix.key_inj {m : HashMatrix K} (hm : m.Wf) {a b a' b' : Int}
    (ha : 0 ≤ a) (ha' : a < m.view.rows) (hb : 0 ≤ b) (hb' : b < m.view.columns)
    (hc : 0 ≤ a') (hc' : a' < m.view.rows) (hd : 0 ≤ b') (hd' : b' < m.view.columns)
    (h : m.key a b = m.key a' b') : a = a' ∧ b = b' := by
  obtain ⟨w1, w2, w3, w4, w5, w6, w7, w8, w9, w10⟩ := hm
  rw [HashMatrix.key, HashMatrix.key] at h
  have h' : (a + m.offset.row) * m.base.columns + (b + m.offset.column)
      = (a' + m.offset.row) * m.base.columns + (b' + m.offset.column) := by
    have e1 : (a + m.offset.row) * m.base.columns + (b + m.offset.column)
        = (a + m.offset.row) * m.base.columns + b + m.offset.column := by ring
    have e2 : (a' + m.offset.row) * m.base.columns + (b' + m.offset.column)
        = (a' + m.offset.row) * m.base.columns + b' + m.offset.column := by ring
    omega
  obtain ⟨e1, e2⟩ := rowmajor_inj (C := m.base.columns)
    (by omega) (by omega) (by omega) (by omega) h'
  exact ⟨by omega, by omega⟩

theorem HashMatrix.Wf_updF_hash {m : HashMatrix K} (hm : m.Wf) {row column : Int}
    (h : ValidIdx m.Shape row column) (element : K) :
    (m.updF row column element).Wf := by
  obtain ⟨h1, h2, h3, h4⟩ := HashMatrix.rewrite_valid_hash h
  obtain ⟨w1, w2, w3, w4, w5, w6, w7, w8, w9, w10⟩ := hm
  rw [HashMatrix.updF]
  by_cases he : element = 0
  · rw [if_pos he]
    refine ⟨w1, w2, w3, w4, w5, w6, w7, w8, ?_, ?_⟩
    · exact List.Nodup.sublist ((mapErase_sublist ..).map Prod.fst) w9
    · exact fun kv hkv => w10 kv ((mapErase_sublist ..).mem hkv)
  · rw [if_neg he]
    refine ⟨w1, w2, w3, w4, w5, w6, w7, w8, mapInsert_keys_nodup w9 .., ?_⟩
    intro kv hkv
    rcases mem_mapInsert hkv with h' | h'
    · rw [h']
      exact HashMatrix.key_bounds ⟨w1, w2, w3, w4, w5, w6, w7, w8, w9, w10⟩ h1 h2 h3 h4
    · exact w10 kv h'

theorem HashMatrix.GetF_updF_self_hash {m : HashMatrix K} (hm : m.Wf) {row column : Int}
    (h : ValidIdx m.Shape row column) (element : K) :
    (m.updF row column element).GetF row column = element := by
  rw [HashMatrix.updF]
  by_cases he : element = 0
  · rw [if_pos he]
    dsimp only [HashMatrix.GetF, HashMatrix.key]
    rw [mapLookup_erase_self hm.2.2.2.2.2.2.2.2.1]
    simp [he]
  · rw [if_neg he]
    dsimp only [HashMatrix.GetF, HashMatrix.key]
    rw [mapLookup_insert_self]
    rfl

theorem HashMatrix.GetF_updF_ne_hash {m : HashMatrix K} (hm : m.Wf) {row column r' c' : Int}
    (h : ValidIdx m.Shape row column) (h' : ValidIdx m.Shape r' c')
    (hne : (row, column) ≠ (r', c')) (element : K) :
    (m.updF row column element).GetF r' c' = m.GetF r' c' := by
  obtain ⟨h1, h2, h3, h4⟩ := HashMatrix.rewrite_valid_hash h
  obtain ⟨g1, g2, g3, g4⟩ := HashMatrix.rewrite_valid_hash h'
  have hkne : m.key (m.rewriter.Rewrite row column).1 (m.rewriter.Rewrite row column).2
      ≠ m.key (m.rewriter.Rewrite r' c').1 (m.rewriter.Rewrite r' c').2 := by
    intro hk
    apply hne
    obtain ⟨e1, e2⟩ := HashMatrix.key_inj hm h1 h2 h3 h4 g1 g2 g3 g4 hk
    have heq : m.rewriter.Rewrite row column = m.rewriter.Rewrite r' c' :=
      Prod.ext_iff.mpr ⟨e1, e2⟩
    cases hr : m.rewriter <;> rw [hr] at heq <;>
      simpa [Rewriter.Rewrite, Prod.ext_iff, and_comm] using heq
  simp only [HashMatrix.key] at hkne
  rw [HashMatrix.updF]
  by_cases he : element = 0
  · rw [if_pos he]
    dsimp only [HashMatrix.GetF, HashMatrix.key]
    rw [mapLookup_erase_ne _ hkne]
  · rw [if_neg he]
    dsimp only [HashMatrix.GetF, HashMatrix.key]
    rw [mapLookup_insert_ne _ hkne]

/-! ## Cursor characterizations -/

theorem exceptBind_ok {ε α β : Type} (a : α) (f : α → Except ε β) :
    (Except.ok a >>= f) = f a := rfl

theorem DenseMatrix.Rows_Columns_pos_dense {m : DenseMatrix K} (hm : m.Wf) :
    0 < m.Rows ∧ 0 < m.Columns := by
  obtain ⟨w1, w2, _⟩ := hm
  rw [DenseMatrix.Rows, DenseMatrix.Columns, DenseMatrix.Shape]
  cases m.rewriter <;> simp only [Rewriter.Rewrite]
  · exact ⟨w1, w2⟩
  · exact ⟨w2, w1⟩

theorem HashMatrix.Rows_Columns_pos_hash {m : HashMatrix K} (hm : m.Wf) :
    0 < m.Rows ∧ 0 < m.Columns := by
  obtain ⟨_, _, w3, w4, _⟩ := hm
  rw [HashMatrix.Rows, HashMatrix.Columns, HashMatrix.Shape]
  cases m.rewriter <;> simp only [Rewriter.Rewrite]
  · exact ⟨w3, w4⟩
  · exact ⟨w4, w3⟩

theorem DenseMatrix.mem_All_dense {m : DenseMatrix K} {t : K × Int × Int} :
    t ∈ m.All ↔ ValidIdx m.Shape t.2.1 t.2.2 ∧ t.1 = m.GetF t.2.1 t.2.2 := by
  obtain ⟨e, r, c⟩ := t
  rw [DenseMatrix.All]
  constructor
  · intro h
    obtain ⟨rc, hrc, heq⟩ := List.mem_map.mp h
    obtain ⟨a1, a2, a3, a4⟩ := mem_allCells.mp hrc
    obtain ⟨he, hr, hc⟩ : e = m.GetF rc.1 rc.2 ∧ rc.1 = r ∧ rc.2 = c := by
      have h1 := congrArg Prod.fst heq
      have h2 := congrArg (fun p => p.2.1) heq
      have h3 := congrArg (fun p => p.2.2) heq
      exact ⟨h1.symm, h2, h3⟩
    subst hr; subst hc
    exact ⟨⟨a1, a2, a3, a4⟩, he⟩
  · rintro ⟨hv, he⟩
    dsimp only at hv he
    exact List.mem_map.mpr ⟨(r, c), mem_allCells.mpr hv, by rw [← he]⟩

theorem HashMatrix.mem_All_hash {m : HashMatrix K} {t : K × Int × Int} :
    t ∈ m.All ↔ ValidIdx m.Shape t.2.1 t.2.2 ∧ t.1 = m.GetF t.2.1 t.2.2 := by
  obtain ⟨e, r, c⟩ := t
  rw [HashMatrix.All]
  constructor
  · intro h
    obtain ⟨rc, hrc, heq⟩ := List.mem_map.mp h
    obtain ⟨a1, a2, a3, a4⟩ := mem_allCells.mp hrc
    obtain ⟨he, hr, hc⟩ : e = m.GetF rc.1 rc.2 ∧ rc.1 = r ∧ rc.2 = c := by
      have h1 := congrArg Prod.fst heq
      have h2 := congrArg (fun p => p.2.1) heq
      have h3 := congrArg (fun p => p.2.2) heq
      exact ⟨h1.symm, h2, h3⟩
    subst hr; subst hc
    exact ⟨⟨a1, a2, a3, a4⟩, he⟩
  · rintro ⟨hv, he⟩
    dsimp only at hv he
    exact List.mem_map.mpr ⟨(r, c), mem_allCells.mpr hv, by rw [← he]⟩

theorem filterMap_map_sublist {α β γ : Type} {l : List α} {f : α → Option β} (g : β → γ)
    (h : α → γ) (hf : ∀ a ∈ l, ∀ t, f a = some t → g t = h a) :
    (((l.filterMap f).map g)).Sublist (l.map h) := by
  induction l with
  | nil => simp
  | cons hd tl ih =>
      rw [List.filterMap_cons, List.map_cons]
      have ih' := ih fun a ha t ht => hf a (List.mem_cons.mpr (Or.inr ha)) t ht
      cases hh : f hd with
      | none => exact List.Sublist.cons _ ih'
      | some t =>
          rw [List.map_cons, hf hd (List.mem_cons.mpr (Or.inl rfl)) t hh]
          exact List.Sublist.cons₂ _ ih'

theorem DenseMatrix.mem_NonZeros_dense {m : DenseMatrix K} {t : K × Int × Int} :
    t ∈ m.NonZeros ↔ ValidIdx m.Shape t.2.1 t.2.2 ∧ t.1 = m.GetF t.2.1 t.2.2 ∧ t.1 ≠ 0 := by
  obtain ⟨e, r, c⟩ := t
  rw [DenseMatrix.NonZeros]
  rw [List.mem_filterMap]
  constructor
  · rintro ⟨rc, hrc, heq⟩
    obtain ⟨a1, a2, a3, a4⟩ := mem_allCells.mp hrc
    by_cases hz : m.GetF rc.1 rc.2 ≠ 0
    · rw [if_pos hz] at heq
      have heq' := Option.some.inj heq
      obtain ⟨he, hr, hc⟩ : m.GetF rc.1 rc.2 = e ∧ rc.1 = r ∧ rc.2 = c := by
        have h1 := congrArg Prod.fst heq'
        have h2 := congrArg (fun p => p.2.1) heq'
        have h3 := congrArg (fun p => p.2.2) heq'
        exact ⟨h1, h2, h3⟩
      subst hr; subst hc
      exact ⟨⟨a1, a2, a3, a4⟩, he.symm, he ▸ hz⟩
    · rw [if_neg hz] at heq; cases heq
  · rintro ⟨hv, he, hz⟩
    refine ⟨(r, c), mem_allCells.mpr hv, ?_⟩
    dsimp only
    rw [if_pos (by rw [← he]; exact hz), ← he]

theorem DenseMatrix.NonZeros_coords_nodup_dense (m : DenseMatrix K) :
    (m.NonZeros.map fun t => t.2).Nodup := by
  have hs := filterMap_map_sublist (l := allCells m.Rows m.Columns)
    (f := fun rc => if m.GetF rc.1 rc.2 ≠ 0 then some (m.GetF rc.1 rc.2, rc.1, rc.2) else none)
    (fun t => t.2) id ?_
  · exact hs.nodup (by rw [List.map_id]; exact allCells_nodup _ _)
  · intro rc _ t ht
    dsimp only at ht
    by_cases hz : m.GetF rc.1 rc.2 ≠ 0
    · rw [if_pos hz] at ht
      obtain rfl := (Option.some.inj ht).symm
      simp
    · rw [if_neg hz] at ht; cases ht

/-- Decoding a stored key of a well-formed hash matrix recovers its
physical coordinate. -/
theorem HashMatrix.decode {m : HashMatrix K} (hm : m.Wf) {kv : Int × K}
    (hkv : kv ∈ m.elements) :
    0 ≤ Int.tdiv kv.1 m.base.columns ∧ Int.tdiv kv.1 m.base.columns < m.base.rows ∧
    0 ≤ Int.tmod kv.1 m.base.columns ∧ Int.tmod kv.1 m.base.columns < m.base.columns ∧
    (Int.tdiv kv.1 m.base.columns) * m.base.columns + Int.tmod kv.1 m.base.columns = kv.1 := by
  obtain ⟨w1, w2, w3, w4, w5, w6, w7, w8, w9, w10⟩ := hm
  obtain ⟨hk0, hk1⟩ := w10 kv hkv
  rw [Int.tdiv_eq_ediv hk0 (le_of_lt w2), Int.tmod_eq_emod hk0 (le_of_lt w2)]
  refine ⟨Int.ediv_nonneg hk0 (le_of_lt w2), ?_,
    Int.emod_nonneg _ (ne_of_gt w2), Int.emod_lt_of_pos _ w2, ?_⟩
  · rw [Int.ediv_lt_iff_lt_mul w2]; exact hk1
  · have h := Int.ediv_add_emod kv.1 m.base.columns
    rw [mul_comm]
    omega

theorem encode_tdiv_tmod {BC p q : Int} (hBC : 0 < BC) (hp : 0 ≤ p) (hq : 0 ≤ q)
    (hq' : q < BC) :
    Int.tdiv (p * BC + q) BC = p ∧ Int.tmod (p * BC + q) BC = q := by
  have hnn : 0 ≤ p * BC + q := by
    have := mul_nonneg hp (le_of_lt hBC); omega
  rw [Int.tdiv_eq_ediv hnn (le_of_lt hBC), Int.tmod_eq_emod hnn (le_of_lt hBC)]
  constructor
  · rw [show p * BC + q = q + BC * p by ring, Int.add_mul_ediv_left _ _ (ne_of_gt hBC),
      Int.ediv_eq_zero_of_lt hq hq']
    omega
  · rw [show p * BC + q = q + BC * p by ring, Int.add_mul_emod_self_left,
      Int.emod_eq_of_lt hq hq']

/-- Inverse direction of `rewrite_valid`: view-frame bounds give a valid
logical coordinate. -/
theorem HashMatrix.validIdx_rewrite {m : HashMatrix K} {a b : Int}
    (h1 : 0 ≤ a) (h2 : a < m.view.rows) (h3 : 0 ≤ b) (h4 : b < m.view.columns) :
    ValidIdx m.Shape (m.rewriter.Rewrite a b).1 (m.rewriter.Rewrite a b).2 := by
  rw [ValidIdx, HashMatrix.Shape]
  cases m.rewriter <;> simp only [Rewriter.Rewrite] <;> exact ⟨by omega, by omega, by omega, by omega⟩

theorem HashMatrix.mem_NonZeros_hash {m : HashMatrix K} (hm : m.Wf) {t : K × Int × Int} :
    t ∈ m.NonZeros ↔ ValidIdx m.Shape t.2.1 t.2.2 ∧ t.1 = m.GetF t.2.1 t.2.2 ∧ t.1 ≠ 0 := by
  obtain ⟨w1, w2, w3, w4, w5, w6, w7, w8, w9, w10⟩ := hm
  obtain ⟨e, r, c⟩ := t
  rw [HashMatrix.NonZeros, List.mem_filterMap]
  constructor
  · rintro ⟨kv, hkv, heq⟩
    obtain ⟨d1, d2, d3, d4, d5⟩ :=
      HashMatrix.decode ⟨w1, w2, w3, w4, w5, w6, w7, w8, w9, w10⟩ hkv
    dsimp only at heq
    by_cases hcond : kv.2 ≠ 0 ∧ 0 ≤ Int.tdiv kv.1 m.base.columns - m.offset.row ∧
        Int.tdiv kv.1 m.base.columns - m.offset.row < m.view.rows ∧
        0 ≤ Int.tmod kv.1 m.base.columns - m.offset.column ∧
        Int.tmod kv.1 m.base.columns - m.offset.column < m.view.columns
    · rw [if_pos hcond] at heq
      have heq' := Option.some.inj heq
      obtain ⟨hc1, hc2, hc3, hc4, hc5⟩ := hcond
      set a := Int.tdiv kv.1 m.base.columns - m.offset.row with ha
      set b := Int.tmod kv.1 m.base.columns - m.offset.column with hb
      obtain ⟨he, hrc⟩ : kv.2 = e ∧ m.rewriter.Rewrite a b = (r, c) :=
        ⟨congrArg Prod.fst heq', congrArg Prod.snd heq'⟩
      have hval := HashMatrix.validIdx_rewrite (m := m) hc2 hc3 hc4 hc5
      rw [hrc] at hval
      refine ⟨hval, ?_, he ▸ hc1⟩
      rw [HashMatrix.GetF]
      have hrw : m.rewriter.Rewrite r c = (a, b) := by
        have hcon := congrArg (fun p => m.rewriter.Rewrite p.1 p.2) hrc
        dsimp only at hcon
        rw [Rewriter.Rewrite_Rewrite] at hcon
        exact hcon.symm
      rw [hrw]
      dsimp only
      have hkey : m.key a b = kv.1 := by
        rw [HashMatrix.key]
        have : (a + m.offset.row) * m.base.columns + b + m.offset.column
            = (Int.tdiv kv.1 m.base.columns) * m.base.columns
              + Int.tmod kv.1 m.base.columns := by
          rw [ha, hb]; ring
        omega
      rw [hkey,
        mapLookup_eq_some_of_mem w9 hkv]
      simp [he]
    · rw [if_neg hcond] at heq; cases heq
  · rintro ⟨hv, he, hz⟩
    dsimp only at hv he hz
    obtain ⟨g1, g2, g3, g4⟩ := @HashMatrix.rewrite_valid_hash K _ m r c hv
    rw [HashMatrix.GetF] at he
    set rc := m.rewriter.Rewrite r c with hrc
    obtain ⟨v, hl⟩ : ∃ v, mapLookup m.elements (m.key rc.1 rc.2) = some v := by
      cases hls : mapLookup m.elements (m.key rc.1 rc.2)
      · rw [hls] at he; simp at he; exact absurd he hz
      · exact ⟨_, rfl⟩
    have hev : e = v := by rw [hl] at he; simpa using he
    refine ⟨(m.key rc.1 rc.2, v), mem_of_mapLookup_eq_some hl, ?_⟩
    have hkeyform : m.key rc.1 rc.2 = (rc.1 + m.offset.row) * m.base.columns
        + (rc.2 + m.offset.column) := by
      rw [HashMatrix.key]; ring
    have henc := @encode_tdiv_tmod m.base.columns
      (rc.1 + m.offset.row) (rc.2 + m.offset.column)
      w2 (by omega) (by omega) (by omega)
    dsimp only
    rw [hkeyform, henc.1, henc.2]
    have hcond : v ≠ 0 ∧ 0 ≤ rc.1 + m.offset.row - m.offset.row ∧
        rc.1 + m.offset.row - m.offset.row < m.view.rows ∧
        0 ≤ rc.2 + m.offset.column - m.offset.column ∧
        rc.2 + m.offset.column - m.offset.column < m.view.columns := by
      refine ⟨by rw [← hev]; exact hz, by omega, by omega, by omega, by omega⟩
    rw [if_pos hcond]
    have hsimp1 : rc.1 + m.offset.row - m.offset.row = rc.1 := by omega
    have hsimp2 : rc.2 + m.offset.column - m.offset.column = rc.2 := by omega
    rw [hsimp1, hsimp2, hrc, Rewriter.Rewrite_Rewrite, ← hev]

theorem HashMatrix.NonZeros_coords_nodup_hash {m : HashMatrix K} (hm : m.Wf) :
    (m.NonZeros.map fun t => t.2).Nodup := by
  have hs := filterMap_map_sublist (l := m.elements)
    (f := fun kv =>
      if kv.2 ≠ 0 ∧ 0 ≤ Int.tdiv kv.1 m.base.columns - m.offset.row ∧
          Int.tdiv kv.1 m.base.columns - m.offset.row < m.view.rows ∧
          0 ≤ Int.tmod kv.1 m.base.columns - m.offset.column ∧
          Int.tmod kv.1 m.base.columns - m.offset.column < m.view.columns then
        some (kv.2, m.rewriter.Rewrite (Int.tdiv kv.1 m.base.columns - m.offset.row)
          (Int.tmod kv.1 m.base.columns - m.offset.column))
      else none)
    (fun t => m.key (m.rewriter.Rewrite t.2.1 t.2.2).1 (m.rewriter.Rewrite t.2.1 t.2.2).2)
    Prod.fst ?_
  · have hnodup := hs.nodup hm.2.2.2.2.2.2.2.2.1
    rw [show (m.NonZeros.map fun t => t.2)
        = m.NonZeros.map (fun t => t.2) from rfl]
    refine List.Nodup.of_map
      (fun rc => m.key (m.rewriter.Rewrite rc.1 rc.2).1 (m.rewriter.Rewrite rc.1 rc.2).2) ?_
    rw [List.map_map]
    exact hnodup
  · intro kv hkv t ht
    obtain ⟨d1, d2, d3, d4, d5⟩ := HashMatrix.decode hm hkv
    dsimp only at ht
    by_cases hcond : kv.2 ≠ 0 ∧ 0 ≤ Int.tdiv kv.1 m.base.columns - m.offset.row ∧
        Int.tdiv kv.1 m.base.columns - m.offset.row < m.view.rows ∧
        0 ≤ Int.tmod kv.1 m.base.columns - m.offset.column ∧
        Int.tmod kv.1 m.base.columns - m.offset.column < m.view.columns
    · rw [if_pos hcond] at ht
      obtain rfl := (Option.some.inj ht).symm
      dsimp only
      rw [Rewriter.Rewrite_Rewrite]
      dsimp only
      rw [HashMatrix.key]
      have : (Int.tdiv kv.1 m.base.columns - m.offset.row + m.offset.row) * m.base.columns
          + (Int.tmod kv.1 m.base.columns - m.offset.column) + m.offset.column
          = (Int.tdiv kv.1 m.base.columns) * m.base.columns
            + Int.tmod kv.1 m.base.columns := by ring
      omega
    · rw [if_neg hcond] at ht; cases ht

/-! ## Equality loop lemmas -/

theorem denseEqualLoop_true {m : DenseMatrix K} :
    ∀ {L : List (K × Int × Int)}, (∀ t ∈ L, m.Get t.2.1 t.2.2 = .ok t.1) →
    denseEqualLoop m L = .ok true := by
  intro L
  induction L with
  | nil => intro _; rfl
  | cons hd tl ih =>
      intro h
      obtain ⟨e, r, c⟩ := hd
      have hh : m.Get r c = .ok e := h (e, r, c) (List.mem_cons.mpr (Or.inl rfl))
      rw [denseEqualLoop, hh, exceptBind_ok, if_neg (by simp)]
      exact ih fun t ht => h t (List.mem_cons.mpr (Or.inr ht))

theorem hashEqualLoop_true {m : HashMatrix K} :
    ∀ {L : List (K × Int × Int)}, (∀ t ∈ L, m.Get t.2.1 t.2.2 = .ok t.1) →
    hashEqualLoop m L = .ok true := by
  intro L
  induction L with
  | nil => intro _; rfl
  | cons hd tl ih =>
      intro h
      obtain ⟨e, r, c⟩ := hd
      have hh : m.Get r c = .ok e := h (e, r, c) (List.mem_cons.mpr (Or.inl rfl))
      rw [hashEqualLoop, hh, exceptBind_ok, if_neg (by simp)]
      exact ih fun t ht => h t (List.mem_cons.mpr (Or.inr ht))

theorem DenseMatrix.Equal_eq_true_dense {m n : DenseMatrix K} (hsh : m.Shape = n.Shape)
    (hag : ∀ r c, ValidIdx n.Shape r c → m.GetF r c = n.GetF r c) :
    m.Equal n = .ok true := by
  rw [DenseMatrix.Equal, ShapeShouldBeSame_eq_ok hsh, exceptBind_ok]
  refine denseEqualLoop_true ?_
  intro t ht
  obtain ⟨hv, he⟩ := DenseMatrix.mem_All_dense.mp ht
  have hv' : ValidIdx m.Shape t.2.1 t.2.2 := by rw [hsh]; exact hv
  rw [DenseMatrix.Get_eq_ok_dense hv', hag _ _ hv, he]

theorem HashMatrix.Equal_eq_true_hash {m n : HashMatrix K} (hsh : m.Shape = n.Shape)
    (hag : ∀ r c, ValidIdx n.Shape r c → m.GetF r c = n.GetF r c) :
    m.Equal n = .ok true := by
  rw [HashMatrix.Equal, ShapeShouldBeSame_eq_ok hsh, exceptBind_ok]
  refine hashEqualLoop_true ?_
  intro t ht
  obtain ⟨hv, he⟩ := HashMatrix.mem_All_hash.mp ht
  have hv' : ValidIdx m.Shape t.2.1 t.2.2 := by rw [hsh]; exact hv
  rw [HashMatrix.Get_eq_ok_hash hv', hag _ _ hv, he]

/-! ## Constructor inversion lemmas -/

theorem hashZeros_eq {rows columns : Int} (h1 : 0 < rows) (h2 : 0 < columns) :
    (hashZeros rows columns : Except MatrixPanic (HashMatrix K))
      = .ok ⟨true, ⟨rows, columns⟩, ⟨rows, columns⟩, ⟨0, 0⟩, [], .reflect⟩ := by
  rw [hashZeros, hashNew, ShapeShouldBePositive_eq_ok h1 h2, exceptBind_ok]
  rfl

theorem hashZeros_eq_error {rows columns : Int} (h : ¬(0 < rows ∧ 0 < columns)) :
    (hashZeros rows columns : Except MatrixPanic (HashMatrix K))
      = .error .NonPositiveSize := by
  rw [hashZeros, hashNew,
    show ShapeShouldBePositive rows columns = .error .NonPositiveSize from by
      simp [ShapeShouldBePositive, h]]
  rfl

/-! ## View and constructor inversion -/

theorem Rewriter.Rewrite_add (rw : Rewriter) (a b c d : Int) :
    rw.Rewrite (a + c) (b + d)
      = ((rw.Rewrite a b).1 + (rw.Rewrite c d).1,
         (rw.Rewrite a b).2 + (rw.Rewrite c d).2) := by
  cases rw <;> rfl

theorem HashMatrix.View_inv {m v : HashMatrix K} {vr vc vrows vcols : Int}
    (h : m.View vr vc vrows vcols = .ok v) :
    v = ⟨true, m.base,
         ⟨(m.rewriter.Rewrite vrows vcols).1, (m.rewriter.Rewrite vrows vcols).2⟩,
         ⟨m.offset.row + (m.rewriter.Rewrite vr vc).1,
          m.offset.column + (m.rewriter.Rewrite vr vc).2⟩,
         m.elements, m.rewriter⟩ := by
  rw [HashMatrix.View] at h
  by_cases h1 : 0 < (m.rewriter.Rewrite vrows vcols).1 ∧
      0 < (m.rewriter.Rewrite vrows vcols).2
  · rw [ShapeShouldBePositive_eq_ok h1.1 h1.2, exceptBind_ok, ViewShouldBeInBase] at h
    dsimp only at h
    by_cases h2 : m.offset.row + (m.rewriter.Rewrite vr vc).1
          + (m.rewriter.Rewrite vrows vcols).1 ≤ m.base.rows ∧
        m.offset.column + (m.rewriter.Rewrite vr vc).2
          + (m.rewriter.Rewrite vrows vcols).2 ≤ m.base.columns
    · rw [if_pos h2, exceptBind_ok] at h
      exact (Except.ok.inj h).symm
    · rw [if_neg h2] at h
      have h' : (Except.error MatrixPanic.ViewOutOfBase : Except MatrixPanic (HashMatrix K))
          = Except.ok v := h
      cases h'
  · rw [show ShapeShouldBePositive (m.rewriter.Rewrite vrows vcols).1
          (m.rewriter.Rewrite vrows vcols).2 = .error .NonPositiveSize from by
        simp [ShapeShouldBePositive, h1]] at h
    have h' : (Except.error MatrixPanic.NonPositiveSize : Except MatrixPanic (HashMatrix K))
        = Except.ok v := h
    cases h'

/-! ## Element-loading loop lemmas (hash constructor) -/

theorem mapInsert_keys_fresh {l : List (Int × K)} {k : Int} (h : mapLookup l k = none)
    (v : K) : (mapInsert l k v).map Prod.fst = l.map Prod.fst ++ [k] := by
  induction l with
  | nil => rfl
  | cons hd tl ih =>
      obtain ⟨k0, v0⟩ := hd
      by_cases h0 : k0 = k
      · subst h0; simp [mapLookup] at h
      · simp only [mapLookup, if_neg h0] at h
        simp [mapInsert, h0, ih h]

theorem hashLoad_dup {rows columns : Int} :
    ∀ (es : List (HashElement K)) (acc : List (Int × K)),
    (∀ e ∈ es, 0 ≤ e.Row ∧ e.Row < rows ∧ 0 ≤ e.Column ∧ e.Column < columns) →
    ((acc.map Prod.fst).Nodup) →
    ¬ (acc.map Prod.fst ++ es.map fun e => e.Row * columns + e.Column).Nodup →
    hashLoad columns ⟨rows, columns⟩ acc es = .error .InvalidElements := by
  intro es
  induction es with
  | nil =>
      intro acc _ hnd hdup
      exact absurd (by simpa using hnd) hdup
  | cons e rest ih =>
      intro acc hb hnd hdup
      have hbe := hb e (List.mem_cons.mpr (Or.inl rfl))
      rw [hashLoad, IndexShouldBeInRange_eq_ok hbe, exceptBind_ok]
      dsimp only
      cases hl : mapLookup acc (e.Row * columns + e.Column) with
      | some w => rfl
      | none =>
          have hkeys := mapInsert_keys_fresh hl e.Value
          have hfresh : e.Row * columns + e.Column ∉ acc.map Prod.fst :=
            mapLookup_eq_none_iff.mp hl
          refine ih _ (fun e' he' => hb e' (List.mem_cons.mpr (Or.inr he'))) ?_ ?_
          · rw [hkeys]
            simp [List.nodup_append, hnd, hfresh]
          · rw [hkeys, List.append_assoc, List.singleton_append]
            simpa using hdup

theorem hashLoad_oob {rows columns : Int} :
    ∀ (es : List (HashElement K)) (acc : List (Int × K)),
    ((es.map fun e => (e.Row, e.Column)).Nodup) →
    (∀ e ∈ es, (0 ≤ e.Row ∧ e.Row < rows ∧ 0 ≤ e.Column ∧ e.Column < columns) →
        mapLookup acc (e.Row * columns + e.Column) = none) →
    (∃ e ∈ es, ¬(0 ≤ e.Row ∧ e.Row < rows ∧ 0 ≤ e.Column ∧ e.Column < columns)) →
    hashLoad columns ⟨rows, columns⟩ acc es = .error .OutOfRange := by
  intro es
  induction es with
  | nil =>
      intro acc _ _ hex
      simp at hex
  | cons e rest ih =>
      intro acc hnd hacc hex
      by_cases hbe : 0 ≤ e.Row ∧ e.Row < rows ∧ 0 ≤ e.Column ∧ e.Column < columns
      · have hnd' := hnd
        rw [List.map_cons, List.nodup_cons] at hnd'
        rw [hashLoad, IndexShouldBeInRange_eq_ok hbe, exceptBind_ok]
        dsimp only
        rw [hacc e (List.mem_cons.mpr (Or.inl rfl)) hbe]
        refine ih _ hnd'.2 ?_ ?_
        · intro e' he' hbe'
          have hne : e'.Row * columns + e'.Column ≠ e.Row * columns + e.Column := by
            intro hkeq
            obtain ⟨hr, hc⟩ := rowmajor_inj hbe'.2.2.1 hbe'.2.2.2 hbe.2.2.1 hbe.2.2.2 hkeq
            have : (e.Row, e.Column) ∈ rest.map fun e => (e.Row, e.Column) :=
              List.mem_map.mpr ⟨e', he', by rw [hr, hc]⟩
            exact hnd'.1 this
          rw [mapLookup_insert_ne _ (fun hh => hne hh.symm)]
          exact hacc e' (List.mem_cons.mpr (Or.inr he')) hbe'
        · obtain ⟨e', he', hoobe⟩ := hex
          rcases List.mem_cons.mp he' with h1 | h1
          · subst h1; exact absurd hbe hoobe
          · exact ⟨e', h1, hoobe⟩
      · rw [hashLoad, IndexShouldBeInRange_eq_error hbe]
        rfl

/-! ## Max/Min scan lemmas -/

theorem maxLoop_some : ∀ (l : List K) (i : Nat) (p : K × Nat),
    ∃ q, maxLoop l i (some p) = some q := by
  intro l
  induction l with
  | nil => intro i p; exact ⟨p, rfl⟩
  | cons c rest ih =>
      intro i p
      obtain ⟨mx, idx⟩ := p
      simp only [maxLoop]
      by_cases h : c ≤ mx
      · rw [if_pos h]; exact ih ..
      · rw [if_neg h]; exact ih ..

theorem minLoop_some : ∀ (l : List K) (i : Nat) (p : K × Nat),
    ∃ q, minLoop l i (some p) = some q := by
  intro l
  induction l with
  | nil => intro i p; exact ⟨p, rfl⟩
  | cons c rest ih =>
      intro i p
      obtain ⟨mn, idx⟩ := p
      simp only [minLoop]
      by_cases h : mn ≤ c
      · rw [if_pos h]; exact ih ..
      · rw [if_neg h]; exact ih ..

theorem maxLoop_ge : ∀ (l : List K) (i : Nat) (acc : Option (K × Nat)) (mx : K)
    (idx : Nat), maxLoop l i acc = some (mx, idx) →
    (∀ e ∈ l, e ≤ mx) ∧ (∀ p, acc = some p → p.1 ≤ mx) := by
  intro l
  induction l with
  | nil =>
      intro i acc mx idx h
      refine ⟨fun e he => absurd he (List.not_mem_nil e), fun p hp => ?_⟩
      simp only [maxLoop] at h
      rw [hp] at h
      obtain rfl := (Option.some.inj h)
      exact le_refl _
  | cons c rest ih =>
      intro i acc mx idx h
      simp only [maxLoop] at h
      cases acc with
      | none =>
          obtain ⟨hrest, hacc⟩ := ih (i + 1) (some (c, i)) mx idx h
          have hc : c ≤ mx := hacc (c, i) rfl
          exact ⟨fun e he => by
            rcases List.mem_cons.mp he with h1 | h1
            · rw [h1]; exact hc
            · exact hrest e h1, fun p hp => by cases hp⟩
      | some p0 =>
          obtain ⟨m0, idx0⟩ := p0
          dsimp only at h
          by_cases hcm : c ≤ m0
          · rw [if_pos hcm] at h
            obtain ⟨hrest, hacc⟩ := ih (i + 1) (some (m0, idx0)) mx idx h
            have hm0 : m0 ≤ mx := hacc (m0, idx0) rfl
            refine ⟨fun e he => ?_, fun p hp => ?_⟩
            · rcases List.mem_cons.mp he with h1 | h1
              · rw [h1]; exact le_trans hcm hm0
              · exact hrest e h1
            · obtain rfl := (Option.some.inj hp).symm
              exact hm0
          · rw [if_neg hcm] at h
            obtain ⟨hrest, hacc⟩ := ih (i + 1) (some (c, i)) mx idx h
            have hc : c ≤ mx := hacc (c, i) rfl
            refine ⟨fun e he => ?_, fun p hp => ?_⟩
            · rcases List.mem_cons.mp he with h1 | h1
              · rw [h1]; exact hc
              · exact hrest e h1
            · obtain rfl := (Option.some.inj hp).symm
              exact le_trans (le_of_not_le hcm) hc
  <;> skip

theorem minLoop_le : ∀ (l : List K) (i : Nat) (acc : Option (K × Nat)) (mn : K)
    (idx : Nat), minLoop l i acc = some (mn, idx) →
    (∀ e ∈ l, mn ≤ e) ∧ (∀ p, acc = some p → mn ≤ p.1) := by
  intro l
  induction l with
  | nil =>
      intro i acc mn idx h
      refine ⟨fun e he => absurd he (List.not_mem_nil e), fun p hp => ?_⟩
      simp only [minLoop] at h
      rw [hp] at h
      obtain rfl := (Option.some.inj h)
      exact le_refl _
  | cons c rest ih =>
      intro i acc mn idx h
      simp only [minLoop] at h
      cases acc with
      | none =>
          obtain ⟨hrest, hacc⟩ := ih (i + 1) (some (c, i)) mn idx h
          have hc : mn ≤ c := hacc (c, i) rfl
          exact ⟨fun e he => by
            rcases List.mem_cons.mp he with h1 | h1
            · rw [h1]; exact hc
            · exact hrest e h1, fun p hp => by cases hp⟩
      | some p0 =>
          obtain ⟨m0, idx0⟩ := p0
          dsimp only at h
          by_cases hcm : m0 ≤ c
          · rw [if_pos hcm] at h
            obtain ⟨hrest, hacc⟩ := ih (i + 1) (some (m0, idx0)) mn idx h
            have hm0 : mn ≤ m0 := hacc (m0, idx0) rfl
            refine ⟨fun e he => ?_, fun p hp => ?_⟩
            · rcases List.mem_cons.mp he with h1 | h1
              · rw [h1]; exact le_trans hm0 hcm
              · exact hrest e h1
            · obtain rfl := (Option.some.inj hp).symm
              exact hm0
          · rw [if_neg hcm] at h
            obtain ⟨hrest, hacc⟩ := ih (i + 1) (some (c, i)) mn idx h
            have hc : mn ≤ c := hacc (c, i) rfl
            refine ⟨fun e he => ?_, fun p hp => ?_⟩
            · rcases List.mem_cons.mp he with h1 | h1
              · rw [h1]; exact hc
              · exact hrest e h1
            · obtain rfl := (Option.some.inj hp).symm
              exact le_trans hc (le_of_not_le hcm)
  <;> skip

theorem maxLoop_mem : ∀ (l : List K) (i : Nat) (acc : Option (K × Nat)) (mx : K)
    (idx : Nat), maxLoop l i acc = some (mx, idx) →
    acc = some (mx, idx) ∨ ∃ j, j < l.length ∧ idx = i + j ∧ l.getD j 0 = mx := by
  intro l
  induction l with
  | nil =>
      intro i acc mx idx h
      exact Or.inl h
  | cons c rest ih =>
      intro i acc mx idx h
      simp only [maxLoop] at h
      cases acc with
      | none =>
          rcases ih (i + 1) (some (c, i)) mx idx h with h1 | ⟨j, hj1, hj2, hj3⟩
          · obtain ⟨he, hi⟩ : c = mx ∧ i = idx := by
              have := Option.some.inj h1
              exact ⟨congrArg Prod.fst this, congrArg Prod.snd this⟩
            exact Or.inr ⟨0, by simp, by omega, by simpa using he⟩
          · exact Or.inr ⟨j + 1, by simpa using hj1, by omega, by simpa using hj3⟩
      | some p0 =>
          obtain ⟨m0, idx0⟩ := p0
          dsimp only at h
          by_cases hcm : c ≤ m0
          · rw [if_pos hcm] at h
            rcases ih (i + 1) (some (m0, idx0)) mx idx h with h1 | ⟨j, hj1, hj2, hj3⟩
            · exact Or.inl h1
            · exact Or.inr ⟨j + 1, by simpa using hj1, by omega, by simpa using hj3⟩
          · rw [if_neg hcm] at h
            rcases ih (i + 1) (some (c, i)) mx idx h with h1 | ⟨j, hj1, hj2, hj3⟩
            · obtain ⟨he, hi⟩ : c = mx ∧ i = idx := by
                have := Option.some.inj h1
                exact ⟨congrArg Prod.fst this, congrArg Prod.snd this⟩
              exact Or.inr ⟨0, by simp, by omega, by simpa using he⟩
            · exact Or.inr ⟨j + 1, by simpa using hj1, by omega, by simpa using hj3⟩
  <;> skip

theorem minLoop_mem : ∀ (l : List K) (i : Nat) (acc : Option (K × Nat)) (mn : K)
    (idx : Nat), minLoop l i acc = some (mn, idx) →
    acc = some (mn, idx) ∨ ∃ j, j < l.length ∧ idx = i + j ∧ l.getD j 0 = mn := by
  intro l
  induction l with
  | nil =>
      intro i acc mn idx h
      exact Or.inl h
  | cons c rest ih =>
      intro i acc mn idx h
      simp only [minLoop] at h
      cases acc with
      | none =>
          rcases ih (i + 1) (some (c, i)) mn idx h with h1 | ⟨j, hj1, hj2, hj3⟩
          · obtain ⟨he, hi⟩ : c = mn ∧ i = idx := by
              have := Option.some.inj h1
              exact ⟨congrArg Prod.fst this, congrArg Prod.snd this⟩
            exact Or.inr ⟨0, by simp, by omega, by simpa using he⟩
          · exact Or.inr ⟨j + 1, by simpa using hj1, by omega, by simpa using hj3⟩
      | some p0 =>
          obtain ⟨m0, idx0⟩ := p0
          dsimp only at h
          by_cases hcm : m0 ≤ c
          · rw [if_pos hcm] at h
            rcases ih (i + 1) (some (m0, idx0)) mn idx h with h1 | ⟨j, hj1, hj2, hj3⟩
            · exact Or.inl h1
            · exact Or.inr ⟨j + 1, by simpa using hj1, by omega, by simpa using hj3⟩
          · rw [if_neg hcm] at h
            rcases ih (i + 1) (some (c, i)) mn idx h with h1 | ⟨j, hj1, hj2, hj3⟩
            · obtain ⟨he, hi⟩ : c = mn ∧ i = idx := by
                have := Option.some.inj h1
                exact ⟨congrArg Prod.fst this, congrArg Prod.snd this⟩
              exact Or.inr ⟨0, by simp, by omega, by simpa using he⟩
            · exact Or.inr ⟨j + 1, by simpa using hj1, by omega, by simpa using hj3⟩
  <;> skip

/-- On a non-transposed dense matrix, `convertToRowColumn` of a flat
buffer position addresses exactly that buffer cell through `Get`. -/
theorem DenseMatrix.convert_get {m : DenseMatrix K} (hm : m.Wf) (hr : m.rewriter = .reflect)
    {j : Nat} (hj : j < m.elements.length) :
    m.Get (m.convertToRowColumn (j : Int)).1 (m.convertToRowColumn (j : Int)).2
      = .ok (m.elements.getD j 0) := by
  obtain ⟨w1, w2, w3⟩ := hm
  have hColumns : m.Columns = m.columns := by
    rw [DenseMatrix.Columns, DenseMatrix.Shape, hr]; rfl
  have hconv : m.convertToRowColumn (j : Int)
      = (Int.tdiv (j : Int) m.Columns,
         (j : Int) - Int.tdiv (j : Int) m.Columns * m.Columns) := rfl
  have hjnn : (0 : Int) ≤ (j : Int) := Int.natCast_nonneg j
  have hjlt : (j : Int) < m.rows * m.columns := by
    rw [← w3]; exact_mod_cast hj
  have htd : Int.tdiv (j : Int) m.Columns = (j : Int) / m.columns := by
    rw [hColumns]; exact Int.tdiv_eq_ediv hjnn (le_of_lt w2)
  have hrow0 : 0 ≤ Int.tdiv (j : Int) m.Columns := by
    rw [htd]; exact Int.ediv_nonneg hjnn (le_of_lt w2)
  have hrowlt : Int.tdiv (j : Int) m.Columns < m.rows := by
    rw [htd, Int.ediv_lt_iff_lt_mul w2]; exact hjlt
  have hcolmod : (j : Int) - Int.tdiv (j : Int) m.Columns * m.Columns
      = (j : Int) % m.columns := by
    rw [htd, hColumns, Int.emod_def]; ring
  have hcol0 : 0 ≤ (j : Int) - Int.tdiv (j : Int) m.Columns * m.Columns := by
    rw [hcolmod]; exact Int.emod_nonneg _ (ne_of_gt w2)
  have hcollt : (j : Int) - Int.tdiv (j : Int) m.Columns * m.Columns < m.columns := by
    rw [hcolmod]; exact Int.emod_lt_of_pos _ w2
  have hvalid : ValidIdx m.Shape (Int.tdiv (j : Int) m.Columns)
      ((j : Int) - Int.tdiv (j : Int) m.Columns * m.Columns) := by
    rw [ValidIdx, DenseMatrix.Shape, hr]
    exact ⟨hrow0, hrowlt, hcol0, hcollt⟩
  rw [hconv]
  dsimp only
  rw [DenseMatrix.Get_eq_ok_dense hvalid, DenseMatrix.GetF, hr]
  dsimp only [Rewriter.Rewrite]
  have hidx : Int.tdiv (j : Int) m.Columns * m.columns
      + ((j : Int) - Int.tdiv (j : Int) m.Columns * m.Columns) = (j : Int) := by
    rw [hColumns]; ring
  rw [hidx, listGetI]
  rw [Int.toNat_natCast]

theorem DenseMatrix.Max_spec {m : DenseMatrix K} (hm : m.Wf) (hr : m.rewriter = .reflect) :
    (∀ e ∈ m.elements, e ≤ m.Max.1) ∧ m.Max.1 ∈ m.elements ∧
    m.Get m.Max.2.1 m.Max.2.2 = .ok m.Max.1 := by
  have hm' := hm
  obtain ⟨w1, w2, w3⟩ := hm'
  have hpos : 0 < m.elements.length := by
    have : (0 : Int) < m.rows * m.columns := mul_pos w1 w2
    omega
  obtain ⟨c, rest, hel⟩ : ∃ c rest, m.elements = c :: rest := by
    cases hle : m.elements with
    | nil => rw [hle] at hpos; simp at hpos
    | cons c rest => exact ⟨c, rest, rfl⟩
  obtain ⟨⟨mx, idx⟩, hq⟩ := maxLoop_some rest 1 (c, 0)
  have hrun : maxLoop m.elements 0 none = some (mx, idx) := by
    rw [hel]; simp only [maxLoop]; exact hq
  have hMax : m.Max = (mx, (m.convertToRowColumn (idx : Int)).1,
      (m.convertToRowColumn (idx : Int)).2) := by
    rw [DenseMatrix.Max, hrun]
  obtain ⟨hge, _⟩ := maxLoop_ge m.elements 0 none mx idx hrun
  rcases maxLoop_mem m.elements 0 none mx idx hrun with h1 | ⟨j, hj1, hj2, hj3⟩
  · cases h1
  have hji : idx = j := by omega
  subst hji
  refine ⟨by rw [hMax]; exact hge, ?_, ?_⟩
  · rw [hMax]
    dsimp only
    rw [← hj3, List.getD_eq_getElem _ _ hj1]
    exact List.getElem_mem hj1
  · rw [hMax]
    dsimp only
    rw [DenseMatrix.convert_get hm hr hj1, hj3]

theorem DenseMatrix.Min_spec {m : DenseMatrix K} (hm : m.Wf) (hr : m.rewriter = .reflect) :
    (∀ e ∈ m.elements, m.Min.1 ≤ e) ∧ m.Min.1 ∈ m.elements ∧
    m.Get m.Min.2.1 m.Min.2.2 = .ok m.Min.1 := by
  have hm' := hm
  obtain ⟨w1, w2, w3⟩ := hm'
  have hpos : 0 < m.elements.length := by
    have : (0 : Int) < m.rows * m.columns := mul_pos w1 w2
    omega
  obtain ⟨c, rest, hel⟩ : ∃ c rest, m.elements = c :: rest := by
    cases hle : m.elements with
    | nil => rw [hle] at hpos; simp at hpos
    | cons c rest => exact ⟨c, rest, rfl⟩
  obtain ⟨⟨mn, idx⟩, hq⟩ := minLoop_some rest 1 (c, 0)
  have hrun : minLoop m.elements 0 none = some (mn, idx) := by
    rw [hel]; simp only [minLoop]; exact hq
  have hMin : m.Min = (mn, (m.convertToRowColumn (idx : Int)).1,
      (m.convertToRowColumn (idx : Int)).2) := by
    rw [DenseMatrix.Min, hrun]
  obtain ⟨hle, _⟩ := minLoop_le m.elements 0 none mn idx hrun
  rcases minLoop_mem m.elements 0 none mn idx hrun with h1 | ⟨j, hj1, hj2, hj3⟩
  · cases h1
  have hji : idx = j := by omega
  subst hji
  refine ⟨by rw [hMin]; exact hle, ?_, ?_⟩
  · rw [hMin]
    dsimp only
    rw [← hj3, List.getD_eq_getElem _ _ hj1]
    exact List.getElem_mem hj1
  · rw [hMin]
    dsimp only
    rw [DenseMatrix.convert_get hm hr hj1, hj3]

/-! ## Add/Subtract loop specifications -/

theorem entryVal_NonZeros_dense {n : DenseMatrix K} {r c : Int} (h : ValidIdx n.Shape r c) :
    entryVal n.NonZeros (r, c) = n.GetF r c := by
  by_cases hz : n.GetF r c = 0
  · rw [hz]
    refine entryVal_eq_zero ?_
    intro t ht hteq
    obtain ⟨hv, he, hnz⟩ := DenseMatrix.mem_NonZeros_dense.mp ht
    apply hnz
    have h1 : t.2.1 = r := congrArg Prod.fst hteq
    have h2 : t.2.2 = c := congrArg Prod.snd hteq
    rw [he, h1, h2, hz]
  · have hmem : (n.GetF r c, r, c) ∈ n.NonZeros :=
      DenseMatrix.mem_NonZeros_dense.mpr ⟨h, rfl, hz⟩
    have := entryVal_eq_of_mem n.NonZeros_coords_nodup_dense hmem
    simpa using this

theorem entryVal_NonZeros_hash {n : HashMatrix K} (hn : n.Wf) {r c : Int}
    (h : ValidIdx n.Shape r c) :
    entryVal n.NonZeros (r, c) = n.GetF r c := by
  by_cases hz : n.GetF r c = 0
  · rw [hz]
    refine entryVal_eq_zero ?_
    intro t ht hteq
    obtain ⟨hv, he, hnz⟩ := (HashMatrix.mem_NonZeros_hash hn).mp ht
    apply hnz
    have h1 : t.2.1 = r := congrArg Prod.fst hteq
    have h2 : t.2.2 = c := congrArg Prod.snd hteq
    rw [he, h1, h2, hz]
  · have hmem : (n.GetF r c, r, c) ∈ n.NonZeros :=
      (HashMatrix.mem_NonZeros_hash hn).mpr ⟨h, rfl, hz⟩
    have := entryVal_eq_of_mem (HashMatrix.NonZeros_coords_nodup_hash hn) hmem
    simpa using this

theorem denseAddLoop_spec :
    ∀ (L : List (K × Int × Int)) (m : DenseMatrix K), m.Wf →
    (∀ t ∈ L, ValidIdx m.Shape t.2.1 t.2.2) →
    ((L.map fun t => t.2).Nodup) →
    ∃ m', denseAddLoop m L = .ok m' ∧ m'.Wf ∧ m'.Shape = m.Shape ∧
      ∀ r c, ValidIdx m.Shape r c → m'.GetF r c = m.GetF r c + entryVal L (r, c) := by
  intro L
  induction L with
  | nil =>
      intro m hm _ _
      exact ⟨m, rfl, hm, rfl, fun r c _ => by rw [entryVal_nil, add_zero]⟩
  | cons t rest ih =>
      intro m hm hv hnd
      obtain ⟨e, r0, c0⟩ := t
      have hval : ValidIdx m.Shape r0 c0 :=
        hv (e, r0, c0) (List.mem_cons.mpr (Or.inl rfl))
      rw [denseAddLoop, DenseMatrix.Get_eq_ok_dense hval, exceptBind_ok,
        DenseMatrix.Update_eq_ok_dense hval, exceptBind_ok]
      have hnd' := hnd
      rw [List.map_cons, List.nodup_cons] at hnd'
      have hm1wf : (m.updF r0 c0 (m.GetF r0 c0 + e)).Wf := DenseMatrix.Wf_updF_dense hm ..
      have hsh1 : (m.updF r0 c0 (m.GetF r0 c0 + e)).Shape = m.Shape :=
        (DenseMatrix.updF_fields_dense ..).2.2.2
      obtain ⟨m', hrun, hwf, hsh, hget⟩ := ih (m.updF r0 c0 (m.GetF r0 c0 + e)) hm1wf
        (fun t ht => by rw [hsh1]; exact hv t (List.mem_cons.mpr (Or.inr ht)))
        hnd'.2
      refine ⟨m', hrun, hwf, by rw [hsh, hsh1], ?_⟩
      intro r c hvc
      rw [hget r c (by rw [hsh1]; exact hvc), entryVal_cons]
      by_cases hcc : ((r0, c0) : Int × Int) = (r, c)
      · obtain ⟨hr, hc⟩ := Prod.ext_iff.mp hcc
        dsimp only at hr hc
        subst hr; subst hc
        rw [DenseMatrix.GetF_updF_self_dense hm hval]
        have hnot : entryVal rest (r0, c0) = 0 := by
          refine entryVal_eq_zero ?_
          intro u hu hue
          exact hnd'.1 (hue ▸ List.mem_map.mpr ⟨u, hu, rfl⟩)
        rw [hnot, if_pos rfl]
        ring
      · rw [DenseMatrix.GetF_updF_ne_dense hm hval hvc hcc, if_neg hcc]
        ring

theorem denseSubtractLoop_spec :
    ∀ (L : List (K × Int × Int)) (m : DenseMatrix K), m.Wf →
    (∀ t ∈ L, ValidIdx m.Shape t.2.1 t.2.2) →
    ((L.map fun t => t.2).Nodup) →
    ∃ m', denseSubtractLoop m L = .ok m' ∧ m'.Wf ∧ m'.Shape = m.Shape ∧
      ∀ r c, ValidIdx m.Shape r c → m'.GetF r c = m.GetF r c - entryVal L (r, c) := by
  intro L
  induction L with
  | nil =>
      intro m hm _ _
      exact ⟨m, rfl, hm, rfl, fun r c _ => by rw [entryVal_nil, sub_zero]⟩
  | cons t rest ih =>
      intro m hm hv hnd
      obtain ⟨e, r0, c0⟩ := t
      have hval : ValidIdx m.Shape r0 c0 :=
        hv (e, r0, c0) (List.mem_cons.mpr (Or.inl rfl))
      rw [denseSubtractLoop, DenseMatrix.Get_eq_ok_dense hval, exceptBind_ok,
        DenseMatrix.Update_eq_ok_dense hval, exceptBind_ok]
      have hnd' := hnd
      rw [List.map_cons, List.nodup_cons] at hnd'
      have hm1wf : (m.updF r0 c0 (m.GetF r0 c0 - e)).Wf := DenseMatrix.Wf_updF_dense hm ..
      have hsh1 : (m.updF r0 c0 (m.GetF r0 c0 - e)).Shape = m.Shape :=
        (DenseMatrix.updF_fields_dense ..).2.2.2
      obtain ⟨m', hrun, hwf, hsh, hget⟩ := ih (m.updF r0 c0 (m.GetF r0 c0 - e)) hm1wf
        (fun t ht => by rw [hsh1]; exact hv t (List.mem_cons.mpr (Or.inr ht)))
        hnd'.2
      refine ⟨m', hrun, hwf, by rw [hsh, hsh1], ?_⟩
      intro r c hvc
      rw [hget r c (by rw [hsh1]; exact hvc), entryVal_cons]
      by_cases hcc : ((r0, c0) : Int × Int) = (r, c)
      · obtain ⟨hr, hc⟩ := Prod.ext_iff.mp hcc
        dsimp only at hr hc
        subst hr; subst hc
        rw [DenseMatrix.GetF_updF_self_dense hm hval]
        have hnot : entryVal rest (r0, c0) = 0 := by
          refine entryVal_eq_zero ?_
          intro u hu hue
          exact hnd'.1 (hue ▸ List.mem_map.mpr ⟨u, hu, rfl⟩)
        rw [hnot, if_pos rfl]
        ring
      · rw [DenseMatrix.GetF_updF_ne_dense hm hval hvc hcc, if_neg hcc]
        ring

theorem hashAddLoop_spec :
    ∀ (L : List (K × Int × Int)) (m : HashMatrix K), m.Wf →
    (∀ t ∈ L, ValidIdx m.Shape t.2.1 t.2.2) →
    ((L.map fun t => t.2).Nodup) →
    ∃ m', hashAddLoop m L = .ok m' ∧ m'.Wf ∧ m'.Shape = m.Shape ∧
      ∀ r c, ValidIdx m.Shape r c → m'.GetF r c = m.GetF r c + entryVal L (r, c) := by
  intro L
  induction L with
  | nil =>
      intro m hm _ _
      exact ⟨m, rfl, hm, rfl, fun r c _ => by rw [entryVal_nil, add_zero]⟩
  | cons t rest ih =>
      intro m hm hv hnd
      obtain ⟨e, r0, c0⟩ := t
      have hval : ValidIdx m.Shape r0 c0 :=
        hv (e, r0, c0) (List.mem_cons.mpr (Or.inl rfl))
      rw [hashAddLoop, HashMatrix.Get_eq_ok_hash hval, exceptBind_ok,
        HashMatrix.Update_eq_ok_hash hval, exceptBind_ok]
      have hnd' := hnd
      rw [List.map_cons, List.nodup_cons] at hnd'
      have hm1wf : (m.updF r0 c0 (m.GetF r0 c0 + e)).Wf := HashMatrix.Wf_updF_hash hm hval _
      have hsh1 : (m.updF r0 c0 (m.GetF r0 c0 + e)).Shape = m.Shape :=
        (HashMatrix.updF_fields_hash ..).2.2.2.2
      obtain ⟨m', hrun, hwf, hsh, hget⟩ := ih (m.updF r0 c0 (m.GetF r0 c0 + e)) hm1wf
        (fun t ht => by rw [hsh1]; exact hv t (List.mem_cons.mpr (Or.inr ht)))
        hnd'.2
      refine ⟨m', hrun, hwf, by rw [hsh, hsh1], ?_⟩
      intro r c hvc
      rw [hget r c (by rw [hsh1]; exact hvc), entryVal_cons]
      by_cases hcc : ((r0, c0) : Int × Int) = (r, c)
      · obtain ⟨hr, hc⟩ := Prod.ext_iff.mp hcc
        dsimp only at hr hc
        subst hr; subst hc
        rw [HashMatrix.GetF_updF_self_hash hm hval]
        have hnot : entryVal rest (r0, c0) = 0 := by
          refine entryVal_eq_zero ?_
          intro u hu hue
          exact hnd'.1 (hue ▸ List.mem_map.mpr ⟨u, hu, rfl⟩)
        rw [hnot, if_pos rfl]
        ring
      · rw [HashMatrix.GetF_updF_ne_hash hm hval hvc hcc, if_neg hcc]
        ring

theorem hashSubtractLoop_spec :
    ∀ (L : List (K × Int × Int)) (m : HashMatrix K), m.Wf →
    (∀ t ∈ L, ValidIdx m.Shape t.2.1 t.2.2) →
    ((L.map fun t => t.2).Nodup) →
    ∃ m', hashSubtractLoop m L = .ok m' ∧ m'.Wf ∧ m'.Shape = m.Shape ∧
      ∀ r c, ValidIdx m.Shape r c → m'.GetF r c = m.GetF r c - entryVal L (r, c) := by
  intro L
  induction L with
  | nil =>
      intro m hm _ _
      exact ⟨m, rfl, hm, rfl, fun r c _ => by rw [entryVal_nil, sub_zero]⟩
  | cons t rest ih =>
      intro m hm hv hnd
      obtain ⟨e, r0, c0⟩ := t
      have hval : ValidIdx m.Shape r0 c0 :=
        hv (e, r0, c0) (List.mem_cons.mpr (Or.inl rfl))
      rw [hashSubtractLoop, HashMatrix.Get_eq_ok_hash hval, exceptBind_ok,
        HashMatrix.Update_eq_ok_hash hval, exceptBind_ok]
      have hnd' := hnd
      rw [List.map_cons, List.nodup_cons] at hnd'
      have hm1wf : (m.updF r0 c0 (m.GetF r0 c0 - e)).Wf := HashMatrix.Wf_updF_hash hm hval _
      have hsh1 : (m.updF r0 c0 (m.GetF r0 c0 - e)).Shape = m.Shape :=
        (HashMatrix.updF_fields_hash ..).2.2.2.2
      obtain ⟨m', hrun, hwf, hsh, hget⟩ := ih (m.updF r0 c0 (m.GetF r0 c0 - e)) hm1wf
        (fun t ht => by rw [hsh1]; exact hv t (List.mem_cons.mpr (Or.inr ht)))
        hnd'.2
      refine ⟨m', hrun, hwf, by rw [hsh, hsh1], ?_⟩
      intro r c hvc
      rw [hget r c (by rw [hsh1]; exact hvc), entryVal_cons]
      by_cases hcc : ((r0, c0) : Int × Int) = (r, c)
      · obtain ⟨hr, hc⟩ := Prod.ext_iff.mp hcc
        dsimp only at hr hc
        subst hr; subst hc
        rw [HashMatrix.GetF_updF_self_hash hm hval]
        have hnot : entryVal rest (r0, c0) = 0 := by
          refine entryVal_eq_zero ?_
          intro u hu hue
          exact hnd'.1 (hue ▸ List.mem_map.mpr ⟨u, hu, rfl⟩)
        rw [hnot, if_pos rfl]
        ring
      · rw [HashMatrix.GetF_updF_ne_hash hm hval hvc hcc, if_neg hcc]
        ring

theorem DenseMatrix.Add_spec_dense {m n : DenseMatrix K} (hm : m.Wf) (hn : n.Wf)
    (hsh : m.Shape = n.Shape) :
    ∃ m', m.Add n = .ok m' ∧ m'.Wf ∧ m'.Shape = m.Shape ∧
      ∀ r c, ValidIdx m.Shape r c → m'.GetF r c = m.GetF r c + n.GetF r c := by
  rw [DenseMatrix.Add, ShapeShouldBeSame_eq_ok hsh, exceptBind_ok]
  obtain ⟨m', hrun, hwf, hshp, hget⟩ := denseAddLoop_spec n.NonZeros m hm
    (fun t ht => by rw [hsh]; exact (DenseMatrix.mem_NonZeros_dense.mp ht).1)
    n.NonZeros_coords_nodup_dense
  refine ⟨m', hrun, hwf, hshp, fun r c hv => ?_⟩
  rw [hget r c hv, entryVal_NonZeros_dense (by rw [← hsh]; exact hv)]

theorem DenseMatrix.Subtract_spec_dense {m n : DenseMatrix K} (hm : m.Wf) (hn : n.Wf)
    (hsh : m.Shape = n.Shape) :
    ∃ m', m.Subtract n = .ok m' ∧ m'.Wf ∧ m'.Shape = m.Shape ∧
      ∀ r c, ValidIdx m.Shape r c → m'.GetF r c = m.GetF r c - n.GetF r c := by
  rw [DenseMatrix.Subtract, ShapeShouldBeSame_eq_ok hsh, exceptBind_ok]
  obtain ⟨m', hrun, hwf, hshp, hget⟩ := denseSubtractLoop_spec n.NonZeros m hm
    (fun t ht => by rw [hsh]; exact (DenseMatrix.mem_NonZeros_dense.mp ht).1)
    n.NonZeros_coords_nodup_dense
  refine ⟨m', hrun, hwf, hshp, fun r c hv => ?_⟩
  rw [hget r c hv, entryVal_NonZeros_dense (by rw [← hsh]; exact hv)]

theorem HashMatrix.Add_spec_hash {m n : HashMatrix K} (hm : m.Wf) (hn : n.Wf)
    (hsh : m.Shape = n.Shape) :
    ∃ m', m.Add n = .ok m' ∧ m'.Wf ∧ m'.Shape = m.Shape ∧
      ∀ r c, ValidIdx m.Shape r c → m'.GetF r c = m.GetF r c + n.GetF r c := by
  rw [HashMatrix.Add, ShapeShouldBeSame_eq_ok hsh, exceptBind_ok]
  obtain ⟨m', hrun, hwf, hshp, hget⟩ := hashAddLoop_spec n.NonZeros m hm
    (fun t ht => by rw [hsh]; exact ((HashMatrix.mem_NonZeros_hash hn).mp ht).1)
    (HashMatrix.NonZeros_coords_nodup_hash hn)
  refine ⟨m', hrun, hwf, hshp, fun r c hv => ?_⟩
  rw [hget r c hv, entryVal_NonZeros_hash hn (by rw [← hsh]; exact hv)]

theorem HashMatrix.Subtract_spec_hash {m n : HashMatrix K} (hm : m.Wf) (hn : n.Wf)
    (hsh : m.Shape = n.Shape) :
    ∃ m', m.Subtract n = .ok m' ∧ m'.Wf ∧ m'.Shape = m.Shape ∧
      ∀ r c, ValidIdx m.Shape r c → m'.GetF r c = m.GetF r c - n.GetF r c := by
  rw [HashMatrix.Subtract, ShapeShouldBeSame_eq_ok hsh, exceptBind_ok]
  obtain ⟨m', hrun, hwf, hshp, hget⟩ := hashSubtractLoop_spec n.NonZeros m hm
    (fun t ht => by rw [hsh]; exact ((HashMatrix.mem_NonZeros_hash hn).mp ht).1)
    (HashMatrix.NonZeros_coords_nodup_hash hn)
  refine ⟨m', hrun, hwf, hshp, fun r c hv => ?_⟩
  rw [hget r c hv, entryVal_NonZeros_hash hn (by rw [← hsh]; exact hv)]

/-! ## Multiply loop specifications -/

theorem ShapeShouldBeMultipliable_eq_ok {s t : Int × Int} (h : s.2 = t.1) :
    ShapeShouldBeMultipliable s t = .ok () := by
  simp [ShapeShouldBeMultipliable, h]

theorem listGetI_replicate (n : Nat) (i : Int) :
    listGetI (List.replicate n (0 : K)) i = 0 := by
  rw [listGetI]
  by_cases h : i.toNat < n
  · rw [List.getD_eq_getElem _ _ (by simpa using h), List.getElem_replicate]
  · rw [List.getD_eq_default _ _ (by simpa using le_of_not_lt h)]

theorem denseZeros_eq {rows columns : Int} (h1 : 0 < rows) (h2 : 0 < columns) :
    (denseZeros rows columns : Except MatrixPanic (DenseMatrix K))
      = .ok ⟨⟨rows, columns⟩, ⟨rows, columns⟩, ⟨0, 0⟩, rows, columns,
             List.replicate (rows * columns).toNat 0, .reflect⟩ := by
  rw [denseZeros, denseNew, ShapeShouldBePositive_eq_ok h1 h2, exceptBind_ok]
  have hlen : ((List.replicate (rows * columns).toNat (0 : K)).length : Int)
      = rows * columns := by
    rw [List.length_replicate]
    have : 0 ≤ rows * columns := le_of_lt (mul_pos h1 h2)
    omega
  rw [if_neg (not_not_intro hlen)]

/-- The per-column contribution of a non-zero cursor equals the full
inner-product column sum. -/
theorem nonZerosColumnSum_dense {n : DenseMatrix K} (f : Int → K) {k : Int}
    (hk : 0 ≤ k) (hk' : k < n.Columns) :
    (n.NonZeros.map fun t => if t.2.2 = k then f t.2.1 * t.1 else 0).sum
      = ((intRange n.Rows).map fun j => f j * n.GetF j k).sum := by
  have hstep := @sum_nonzeros_eq K _ (allCells n.Rows n.Columns)
    (fun rc => n.GetF rc.1 rc.2) n.NonZeros
    (fun v j kk => if kk = k then f j * v else 0)
    (allCells_nodup ..) n.NonZeros_coords_nodup_dense
    (fun t ht => by
      obtain ⟨hv, he, _⟩ := DenseMatrix.mem_NonZeros_dense.mp ht
      exact ⟨mem_allCells.mpr hv, he⟩)
    (fun rc hrc => by
      by_cases hz : n.GetF rc.1 rc.2 = 0
      · exact Or.inr hz
      · refine Or.inl (List.mem_map.mpr ⟨(n.GetF rc.1 rc.2, rc.1, rc.2), ?_, rfl⟩)
        exact DenseMatrix.mem_NonZeros_dense.mpr ⟨mem_allCells.mp hrc, rfl, hz⟩)
    (fun r c => by simp)
  refine hstep.trans ?_
  rw [allCells, sum_map_flatMap]
  refine congrArg List.sum (List.map_congr_left ?_)
  intro j hj
  rw [List.map_map]
  have : ((intRange n.Columns).map
        ((fun rc => if rc.2 = k then f rc.1 * n.GetF rc.1 rc.2 else 0) ∘ fun c => (j, c))).sum
      = ((intRange n.Columns).map fun c =>
          if c = k then f j * n.GetF j c else 0).sum := by
    refine congrArg List.sum (List.map_congr_left ?_)
    intro c _
    rfl
  rw [this, sum_map_ite_eq_of_nodup (intRange_nodup _) (mem_intRange.mpr ⟨hk, hk'⟩)]

theorem nonZerosColumnSum_hash {n : HashMatrix K} (hn : n.Wf) (f : Int → K) {k : Int}
    (hk : 0 ≤ k) (hk' : k < n.Columns) :
    (n.NonZeros.map fun t => if t.2.2 = k then f t.2.1 * t.1 else 0).sum
      = ((intRange n.Rows).map fun j => f j * n.GetF j k).sum := by
  have hstep := @sum_nonzeros_eq K _ (allCells n.Rows n.Columns)
    (fun rc => n.GetF rc.1 rc.2) n.NonZeros
    (fun v j kk => if kk = k then f j * v else 0)
    (allCells_nodup ..) (HashMatrix.NonZeros_coords_nodup_hash hn)
    (fun t ht => by
      obtain ⟨hv, he, _⟩ := (HashMatrix.mem_NonZeros_hash hn).mp ht
      exact ⟨mem_allCells.mpr hv, he⟩)
    (fun rc hrc => by
      by_cases hz : n.GetF rc.1 rc.2 = 0
      · exact Or.inr hz
      · refine Or.inl (List.mem_map.mpr ⟨(n.GetF rc.1 rc.2, rc.1, rc.2), ?_, rfl⟩)
        exact (HashMatrix.mem_NonZeros_hash hn).mpr ⟨mem_allCells.mp hrc, rfl, hz⟩)
    (fun r c => by simp)
  refine hstep.trans ?_
  rw [allCells, sum_map_flatMap]
  refine congrArg List.sum (List.map_congr_left ?_)
  intro j hj
  rw [List.map_map]
  have : ((intRange n.Columns).map
        ((fun rc => if rc.2 = k then f rc.1 * n.GetF rc.1 rc.2 else 0) ∘ fun c => (j, c))).sum
      = ((intRange n.Columns).map fun c =>
          if c = k then f j * n.GetF j c else 0).sum := by
    refine congrArg List.sum (List.map_congr_left ?_)
    intro c _
    rfl
  rw [this, sum_map_ite_eq_of_nodup (intRange_nodup _) (mem_intRange.mpr ⟨hk, hk'⟩)]

theorem denseMultiplyInner_spec :
    ∀ (is : List Int) (r m : DenseMatrix K) (e : K) (j k : Int),
    r.Wf → m.Wf → is.Nodup →
    (∀ i ∈ is, ValidIdx r.Shape i k ∧ ValidIdx m.Shape i j) →
    ∃ r', denseMultiplyInner m e j k is r = .ok r' ∧ r'.Wf ∧ r'.Shape = r.Shape ∧
      ∀ a b, ValidIdx r.Shape a b →
        r'.GetF a b = r.GetF a b + (if b = k ∧ a ∈ is then m.GetF a j * e else 0) := by
  intro is
  induction is with
  | nil =>
      intro r m e j k hr hm _ _
      exact ⟨r, rfl, hr, rfl, fun a b _ => by simp⟩
  | cons i rest ih =>
      intro r m e j k hr hm hnd hv
      have hvik := hv i (List.mem_cons.mpr (Or.inl rfl))
      rw [denseMultiplyInner, DenseMatrix.Get_eq_ok_dense hvik.1, exceptBind_ok,
        DenseMatrix.Get_eq_ok_dense hvik.2, exceptBind_ok,
        DenseMatrix.Update_eq_ok_dense hvik.1, exceptBind_ok]
      have hnd' := List.nodup_cons.mp hnd
      have hr1wf : (r.updF i k (r.GetF i k + m.GetF i j * e)).Wf :=
        DenseMatrix.Wf_updF_dense hr ..
      have hsh1 : (r.updF i k (r.GetF i k + m.GetF i j * e)).Shape = r.Shape :=
        (DenseMatrix.updF_fields_dense ..).2.2.2
      obtain ⟨r', hrun, hwf, hsh, hget⟩ :=
        ih (r.updF i k (r.GetF i k + m.GetF i j * e)) m e j k hr1wf hm hnd'.2
          (fun i' hi' => by
            rw [hsh1]; exact hv i' (List.mem_cons.mpr (Or.inr hi')))
      refine ⟨r', hrun, hwf, by rw [hsh, hsh1], ?_⟩
      intro a b hab
      rw [hget a b (by rw [hsh1]; exact hab)]
      by_cases hik : ((i, k) : Int × Int) = (a, b)
      · obtain ⟨hia, hkb⟩ := Prod.ext_iff.mp hik
        dsimp only at hia hkb
        subst hia; subst hkb
        rw [DenseMatrix.GetF_updF_self_dense hr hvik.1]
        rw [if_neg (fun hh => hnd'.1 hh.2),
          if_pos ⟨rfl, List.mem_cons.mpr (Or.inl rfl)⟩]
        ring
      · rw [DenseMatrix.GetF_updF_ne_dense hr hvik.1 hab hik]
        have hcond : (b = k ∧ a ∈ rest) ↔ (b = k ∧ a ∈ i :: rest) := by
          constructor
          · rintro ⟨h1, h2⟩; exact ⟨h1, List.mem_cons.mpr (Or.inr h2)⟩
          · rintro ⟨h1, h2⟩
            rcases List.mem_cons.mp h2 with h3 | h3
            · exact absurd (by rw [h3, h1]) hik
            · exact ⟨h1, h3⟩
        by_cases hc : b = k ∧ a ∈ rest
        · rw [if_pos hc, if_pos (hcond.mp hc)]
        · rw [if_neg hc, if_neg (fun hh => hc (hcond.mpr hh))]

theorem denseMultiplyLoop_spec :
    ∀ (L : List (K × Int × Int)) (r m : DenseMatrix K) (rows : Int),
    r.Wf → m.Wf → rows = m.Rows → r.Rows = rows →
    (∀ t ∈ L, 0 ≤ t.2.1 ∧ t.2.1 < m.Columns ∧ 0 ≤ t.2.2 ∧ t.2.2 < r.Columns) →
    ∃ r', denseMultiplyLoop m rows L r = .ok r' ∧ r'.Wf ∧ r'.Shape = r.Shape ∧
      ∀ a b, ValidIdx r.Shape a b →
        r'.GetF a b = r.GetF a b
          + (L.map fun t => if t.2.2 = b then m.GetF a t.2.1 * t.1 else 0).sum := by
  intro L
  induction L with
  | nil =>
      intro r m rows hr hm _ _ _
      exact ⟨r, rfl, hr, rfl, fun a b _ => by simp⟩
  | cons t rest ih =>
      intro r m rows hr hm hrows hrRows hb
      obtain ⟨e, j, k⟩ := t
      have hbt := hb (e, j, k) (List.mem_cons.mpr (Or.inl rfl))
      rw [denseMultiplyLoop]
      have hvinner : ∀ i ∈ intRange rows, ValidIdx r.Shape i k ∧ ValidIdx m.Shape i j := by
        intro i hi
        obtain ⟨hi0, hi1⟩ := mem_intRange.mp hi
        constructor
        · exact ⟨hi0, by
            rw [show r.Shape.1 = r.Rows from rfl, hrRows]; exact hi1,
            hbt.2.2.1, hbt.2.2.2⟩
        · exact ⟨hi0, by
            rw [show m.Shape.1 = m.Rows from rfl, ← hrows]; exact hi1,
            hbt.1, hbt.2.1⟩
      obtain ⟨r1, h1run, h1wf, h1sh, h1get⟩ :=
        denseMultiplyInner_spec (intRange rows) r m e j k hr hm (intRange_nodup _) hvinner
      rw [h1run, exceptBind_ok]
      obtain ⟨r', hrun, hwf, hsh, hget⟩ := ih r1 m rows h1wf hm hrows
        (by rw [show r1.Rows = r1.Shape.1 from rfl, h1sh]; exact hrRows)
        (fun t ht => by
          have := hb t (List.mem_cons.mpr (Or.inr ht))
          refine ⟨this.1, this.2.1, this.2.2.1, ?_⟩
          rw [show r1.Columns = r1.Shape.2 from rfl, h1sh]
          exact this.2.2.2)
      refine ⟨r', hrun, hwf, by rw [hsh, h1sh], ?_⟩
      intro a b hab
      rw [hget a b (by rw [h1sh]; exact hab), h1get a b hab]
      rw [List.map_cons, List.sum_cons]
      have hamem : a ∈ intRange rows := by
        refine mem_intRange.mpr ⟨hab.1, ?_⟩
        have h2 := hab.2.1
        rw [show r.Shape.1 = r.Rows from rfl, hrRows] at h2
        exact h2
      by_cases hbk : b = k
      · rw [if_pos ⟨hbk, hamem⟩, if_pos hbk.symm, hbk]
        ring
      · rw [if_neg (fun hh => hbk hh.1), if_neg (fun hh => hbk hh.symm)]
        ring

theorem DenseMatrix.Multiply_spec_dense {m n : DenseMatrix K} (hm : m.Wf) (hn : n.Wf)
    (hmul : m.Columns = n.Rows) :
    ∃ r, m.Multiply n = .ok r ∧ r.Shape = (m.Rows, n.Columns) ∧
      ∀ i k, ValidIdx (m.Rows, n.Columns) i k →
        r.Get i k = .ok (((intRange n.Rows).map fun j => m.GetF i j * n.GetF j k).sum) := by
  have hposm := DenseMatrix.Rows_Columns_pos_dense hm
  have hposn := DenseMatrix.Rows_Columns_pos_dense hn
  rw [DenseMatrix.Multiply, ShapeShouldBeMultipliable_eq_ok hmul, exceptBind_ok]
  dsimp only
  rw [denseZeros_eq hposm.1 hposn.2, exceptBind_ok]
  have hZwf : (⟨⟨m.Rows, n.Columns⟩, ⟨m.Rows, n.Columns⟩, ⟨0, 0⟩, m.Rows, n.Columns,
      List.replicate (m.Rows * n.Columns).toNat 0, .reflect⟩ : DenseMatrix K).Wf := by
    refine ⟨hposm.1, hposn.2, ?_⟩
    dsimp only
    rw [List.length_replicate]
    have : 0 ≤ m.Rows * n.Columns := le_of_lt (mul_pos hposm.1 hposn.2)
    omega
  obtain ⟨r, hrun, hwf, hsh, hget⟩ := denseMultiplyLoop_spec n.NonZeros
    ⟨⟨m.Rows, n.Columns⟩, ⟨m.Rows, n.Columns⟩, ⟨0, 0⟩, m.Rows, n.Columns,
      List.replicate (m.Rows * n.Columns).toNat 0, .reflect⟩ m m.Rows
    hZwf hm rfl rfl
    (fun t ht => by
      have hv := (DenseMatrix.mem_NonZeros_dense.mp ht).1
      exact ⟨hv.1, by rw [hmul]; exact hv.2.1, hv.2.2.1, hv.2.2.2⟩)
  rw [hrun]
  refine ⟨r, rfl, by rw [hsh]; rfl, ?_⟩
  intro i k hval
  have hvr : ValidIdx (⟨⟨m.Rows, n.Columns⟩, ⟨m.Rows, n.Columns⟩, ⟨0, 0⟩, m.Rows,
      n.Columns, List.replicate (m.Rows * n.Columns).toNat 0,
      .reflect⟩ : DenseMatrix K).Shape i k := hval
  have hvr' : ValidIdx r.Shape i k := by rw [hsh]; exact hvr
  rw [DenseMatrix.Get_eq_ok_dense hvr', hget i k hvr]
  have hZget : (⟨⟨m.Rows, n.Columns⟩, ⟨m.Rows, n.Columns⟩, ⟨0, 0⟩, m.Rows, n.Columns,
      List.replicate (m.Rows * n.Columns).toNat 0, .reflect⟩ : DenseMatrix K).GetF i k
      = 0 := listGetI_replicate ..
  rw [hZget, zero_add,
    nonZerosColumnSum_dense (fun j => m.GetF i j) hval.2.2.1 hval.2.2.2]

theorem hashZeroLit_GetF (R C a b : Int) :
    (⟨true, ⟨R, C⟩, ⟨R, C⟩, ⟨0, 0⟩, [], .reflect⟩ : HashMatrix K).GetF a b = 0 := rfl

theorem hashZeroLit_Wf {R C : Int} (h1 : 0 < R) (h2 : 0 < C) :
    (⟨true, ⟨R, C⟩, ⟨R, C⟩, ⟨0, 0⟩, [], .reflect⟩ : HashMatrix K).Wf := by
  refine ⟨h1, h2, h1, h2, le_refl 0, le_refl 0, ?_, ?_, List.nodup_nil, ?_⟩
  · dsimp only; omega
  · dsimp only; omega
  · intro kv hkv; cases hkv

theorem hashMultiplyInner_spec :
    ∀ (is : List Int) (r m : HashMatrix K) (e : K) (j k : Int),
    r.Wf → m.Wf → is.Nodup →
    (∀ i ∈ is, ValidIdx r.Shape i k ∧ ValidIdx m.Shape i j) →
    ∃ r', hashMultiplyInner m e j k is r = .ok r' ∧ r'.Wf ∧ r'.Shape = r.Shape ∧
      ∀ a b, ValidIdx r.Shape a b →
        r'.GetF a b = r.GetF a b + (if b = k ∧ a ∈ is then m.GetF a j * e else 0) := by
  intro is
  induction is with
  | nil =>
      intro r m e j k hr hm _ _
      exact ⟨r, rfl, hr, rfl, fun a b _ => by simp⟩
  | cons i rest ih =>
      intro r m e j k hr hm hnd hv
      have hvik := hv i (List.mem_cons.mpr (Or.inl rfl))
      rw [hashMultiplyInner, HashMatrix.Get_eq_ok_hash hvik.1, exceptBind_ok,
        HashMatrix.Get_eq_ok_hash hvik.2, exceptBind_ok,
        HashMatrix.Update_eq_ok_hash hvik.1, exceptBind_ok]
      have hnd' := List.nodup_cons.mp hnd
      have hr1wf : (r.updF i k (r.GetF i k + m.GetF i j * e)).Wf :=
        HashMatrix.Wf_updF_hash hr hvik.1 _
      have hsh1 : (r.updF i k (r.GetF i k + m.GetF i j * e)).Shape = r.Shape :=
        (HashMatrix.updF_fields_hash ..).2.2.2.2
      obtain ⟨r', hrun, hwf, hsh, hget⟩ :=
        ih (r.updF i k (r.GetF i k + m.GetF i j * e)) m e j k hr1wf hm hnd'.2
          (fun i' hi' => by
            rw [hsh1]; exact hv i' (List.mem_cons.mpr (Or.inr hi')))
      refine ⟨r', hrun, hwf, by rw [hsh, hsh1], ?_⟩
      intro a b hab
      rw [hget a b (by rw [hsh1]; exact hab)]
      by_cases hik : ((i, k) : Int × Int) = (a, b)
      · obtain ⟨hia, hkb⟩ := Prod.ext_iff.mp hik
        dsimp only at hia hkb
        subst hia; subst hkb
        rw [HashMatrix.GetF_updF_self_hash hr hvik.1]
        rw [if_neg (fun hh => hnd'.1 hh.2),
          if_pos ⟨rfl, List.mem_cons.mpr (Or.inl rfl)⟩]
        ring
      · rw [HashMatrix.GetF_updF_ne_hash hr hvik.1 hab hik]
        have hcond : (b = k ∧ a ∈ rest) ↔ (b = k ∧ a ∈ i :: rest) := by
          constructor
          · rintro ⟨h1, h2⟩; exact ⟨h1, List.mem_cons.mpr (Or.inr h2)⟩
          · rintro ⟨h1, h2⟩
            rcases List.mem_cons.mp h2 with h3 | h3
            · exact absurd (by rw [h3, h1]) hik
            · exact ⟨h1, h3⟩
        by_cases hc : b = k ∧ a ∈ rest
        · rw [if_pos hc, if_pos (hcond.mp hc)]
        · rw [if_neg hc, if_neg (fun hh => hc (hcond.mpr hh))]

theorem hashMultiplyLoop_spec :
    ∀ (L : List (K × Int × Int)) (r m : HashMatrix K) (rows : Int),
    r.Wf → m.Wf → rows = m.Rows → r.Rows = rows →
    (∀ t ∈ L, 0 ≤ t.2.1 ∧ t.2.1 < m.Columns ∧ 0 ≤ t.2.2 ∧ t.2.2 < r.Columns) →
    ∃ r', hashMultiplyLoop m rows L r = .ok r' ∧ r'.Wf ∧ r'.Shape = r.Shape ∧
      ∀ a b, ValidIdx r.Shape a b →
        r'.GetF a b = r.GetF a b
          + (L.map fun t => if t.2.2 = b then m.GetF a t.2.1 * t.1 else 0).sum := by
  intro L
  induction L with
  | nil =>
      intro r m rows hr hm _ _ _
      exact ⟨r, rfl, hr, rfl, fun a b _ => by simp⟩
  | cons t rest ih =>
      intro r m rows hr hm hrows hrRows hb
      obtain ⟨e, j, k⟩ := t
      have hbt := hb (e, j, k) (List.mem_cons.mpr (Or.inl rfl))
      rw [hashMultiplyLoop]
      have hvinner : ∀ i ∈ intRange rows, ValidIdx r.Shape i k ∧ ValidIdx m.Shape i j := by
        intro i hi
        obtain ⟨hi0, hi1⟩ := mem_intRange.mp hi
        constructor
        · exact ⟨hi0, by
            rw [show r.Shape.1 = r.Rows from rfl, hrRows]; exact hi1,
            hbt.2.2.1, hbt.2.2.2⟩
        · exact ⟨hi0, by
            rw [show m.Shape.1 = m.Rows from rfl, ← hrows]; exact hi1,
            hbt.1, hbt.2.1⟩
      obtain ⟨r1, h1run, h1wf, h1sh, h1get⟩ :=
        hashMultiplyInner_spec (intRange rows) r m e j k hr hm (intRange_nodup _) hvinner
      rw [h1run, exceptBind_ok]
      obtain ⟨r', hrun, hwf, hsh, hget⟩ := ih r1 m rows h1wf hm hrows
        (by rw [show r1.Rows = r1.Shape.1 from rfl, h1sh]; exact hrRows)
        (fun t ht => by
          have := hb t (List.mem_cons.mpr (Or.inr ht))
          refine ⟨this.1, this.2.1, this.2.2.1, ?_⟩
          rw [show r1.Columns = r1.Shape.2 from rfl, h1sh]
          exact this.2.2.2)
      refine ⟨r', hrun, hwf, by rw [hsh, h1sh], ?_⟩
      intro a b hab
      rw [hget a b (by rw [h1sh]; exact hab), h1get a b hab]
      rw [List.map_cons, List.sum_cons]
      have hamem : a ∈ intRange rows := by
        refine mem_intRange.mpr ⟨hab.1, ?_⟩
        have h2 := hab.2.1
        rw [show r.Shape.1 = r.Rows from rfl, hrRows] at h2
        exact h2
      by_cases hbk : b = k
      · rw [if_pos ⟨hbk, hamem⟩, if_pos hbk.symm, hbk]
        ring
      · rw [if_neg (fun hh => hbk hh.1), if_neg (fun hh => hbk hh.symm)]
        ring

theorem HashMatrix.Multiply_spec_hash {m n : HashMatrix K} (hm : m.Wf) (hn : n.Wf)
    (hmul : m.Columns = n.Rows) :
    ∃ r, m.Multiply n = .ok r ∧ r.Shape = (m.Rows, n.Columns) ∧
      ∀ i k, ValidIdx (m.Rows, n.Columns) i k →
        r.Get i k = .ok (((intRange n.Rows).map fun j => m.GetF i j * n.GetF j k).sum) := by
  have hposm := HashMatrix.Rows_Columns_pos_hash hm
  have hposn := HashMatrix.Rows_Columns_pos_hash hn
  rw [HashMatrix.Multiply, ShapeShouldBeMultipliable_eq_ok hmul, exceptBind_ok]
  dsimp only
  rw [hashZeros_eq hposm.1 hposn.2, exceptBind_ok]
  have hZwf : (⟨true, ⟨m.Rows, n.Columns⟩, ⟨m.Rows, n.Columns⟩, ⟨0, 0⟩, [],
      .reflect⟩ : HashMatrix K).Wf := hashZeroLit_Wf hposm.1 hposn.2
  obtain ⟨r, hrun, hwf, hsh, hget⟩ := hashMultiplyLoop_spec n.NonZeros
    ⟨true, ⟨m.Rows, n.Columns⟩, ⟨m.Rows, n.Columns⟩, ⟨0, 0⟩, [], .reflect⟩ m m.Rows
    hZwf hm rfl rfl
    (fun t ht => by
      have hv := ((HashMatrix.mem_NonZeros_hash hn).mp ht).1
      exact ⟨hv.1, by rw [hmul]; exact hv.2.1, hv.2.2.1, hv.2.2.2⟩)
  rw [hrun]
  refine ⟨r, rfl, by rw [hsh]; rfl, ?_⟩
  intro i k hval
  have hvr : ValidIdx (⟨true, ⟨m.Rows, n.Columns⟩, ⟨m.Rows, n.Columns⟩, ⟨0, 0⟩, [],
      .reflect⟩ : HashMatrix K).Shape i k := hval
  have hvr' : ValidIdx r.Shape i k := by rw [hsh]; exact hvr
  rw [HashMatrix.Get_eq_ok_hash hvr', hget i k hvr, hashZeroLit_GetF, zero_add,
    nonZerosColumnSum_hash hn (fun j => m.GetF i j) hval.2.2.1 hval.2.2.2]

end ScalarLemmas

/-! ## Claim theorems

Each claim of the specification is settled by exactly one theorem below
(plus a witness or counterexample where required). -/

section Claims

variable {K : Type} [LinearOrderedCommRing K]

/-- C2: For every matrix (dense and sparse), Transpose(Transpose(M)) has
the same shape as M and agrees with M on Get for every index — double
transpose is the identity, because the rewrite strategy attached to a
view toggles between the identity and transpose-swap variants.  (For the
dense backend double transposition even restores the descriptor itself.) -/
theorem C2_double_transpose_identity :
    (∀ m : DenseMatrix K, m.Transpose.Transpose = m) ∧
    (∀ m : HashMatrix K, m.Transpose.Transpose.Shape = m.Shape ∧
       ∀ r c, m.Transpose.Transpose.Get r c = m.Get r c) ∧
    (∀ rw : Rewriter, rw.Transpose.Transpose = rw) := by
  refine ⟨?_, ?_, Rewriter.Transpose_Transpose⟩
  · intro m
    cases m
    simp [DenseMatrix.Transpose, Rewriter.Transpose_Transpose]
  · intro m
    constructor
    · dsimp only [HashMatrix.Transpose, HashMatrix.Shape]
      rw [Rewriter.Transpose_Transpose]
    · intro r c
      dsimp only [HashMatrix.Transpose, HashMatrix.Get, HashMatrix.key]
      rw [Rewriter.Transpose_Transpose]

/-- C3 (amended): the sparse invariant "present key ↔ non-zero value" is
established by zero-construction and preserved by Update (a zero write
deletes the key) and by Scale (a zero product deletes the key); however
`hash.New` stores an explicitly supplied zero-valued element, so
construction from an explicit element list does *not* establish it. -/
theorem C3_sparse_invariant_update_scale :
    (∀ rows columns : Int, ∀ m : HashMatrix K,
       hashZeros rows columns = .ok m → m.NonZeroInv) ∧
    (∀ m m' : HashMatrix K, ∀ r c : Int, ∀ v : K,
       m.NonZeroInv → m.Update r c v = .ok m' → m'.NonZeroInv) ∧
    (∀ m : HashMatrix K, ∀ s : K, (m.Scale s).NonZeroInv) := by
  refine ⟨?_, ?_, ?_⟩
  · intro rows columns m h
    by_cases hp : 0 < rows ∧ 0 < columns
    · rw [hashZeros_eq hp.1 hp.2] at h
      cases h
      intro kv hkv
      cases hkv
    · rw [hashZeros_eq_error hp] at h
      cases h
  · intro m m' r c v hinv h
    by_cases hval : ValidIdx m.Shape r c
    · rw [HashMatrix.Update_eq_ok_hash hval] at h
      cases h
      rw [HashMatrix.updF]
      by_cases hv : v = 0
      · rw [if_pos hv]
        intro kv hkv
        exact hinv kv ((mapErase_sublist ..).mem hkv)
      · rw [if_neg hv]
        intro kv hkv
        rcases mem_mapInsert hkv with h1 | h1
        · rw [h1]; exact hv
        · exact hinv kv h1
    · rw [HashMatrix.Update_eq_error_hash hval] at h
      cases h
  · intro m s kv hkv
    rw [HashMatrix.Scale] at hkv
    obtain ⟨kv0, _, hkv0⟩ := List.mem_filterMap.mp hkv
    by_cases hz : kv0.2 * s = 0
    · rw [if_pos hz] at hkv0; cases hkv0
    · rw [if_neg hz] at hkv0
      obtain rfl := (Option.some.inj hkv0).symm
      exact hz

/-- C3 counterexample: constructing a sparse matrix from the explicit
element list [(0,0) ↦ 0] stores the key 0 with value 0, so the map holds
a zero value and the invariant does not hold after construction. -/
theorem C3_counterexample_new_stores_zero :
    hashNew 1 1 [⟨0, 0, (0 : ℤ)⟩]
      = .ok ⟨true, ⟨1, 1⟩, ⟨1, 1⟩, ⟨0, 0⟩, [(0, 0)], .reflect⟩ ∧
    ¬ (⟨true, ⟨1, 1⟩, ⟨1, 1⟩, ⟨0, 0⟩, [(0, 0)], .reflect⟩ : HashMatrix ℤ).NonZeroInv :=
  ⟨rfl, by decide⟩

/-- C3 witness: a concrete Update through the amended invariant theorem. -/
theorem C3_witness :
    (⟨true, ⟨2, 2⟩, ⟨2, 2⟩, ⟨0, 0⟩, [], .reflect⟩ : HashMatrix ℤ).NonZeroInv ∧
    (⟨true, ⟨2, 2⟩, ⟨2, 2⟩, ⟨0, 0⟩, [], .reflect⟩ : HashMatrix ℤ).Update 0 0 5
      = .ok ⟨true, ⟨2, 2⟩, ⟨2, 2⟩, ⟨0, 0⟩, [(0, 5)], .reflect⟩ ∧
    (⟨true, ⟨2, 2⟩, ⟨2, 2⟩, ⟨0, 0⟩, [(0, 5)], .reflect⟩ : HashMatrix ℤ).NonZeroInv :=
  ⟨by decide, rfl,
    (C3_sparse_invariant_update_scale (K := ℤ)).2.1
      ⟨true, ⟨2, 2⟩, ⟨2, 2⟩, ⟨0, 0⟩, [], .reflect⟩
      ⟨true, ⟨2, 2⟩, ⟨2, 2⟩, ⟨0, 0⟩, [(0, 5)], .reflect⟩
      0 0 5 (by decide) rfl⟩

/-- C6: Equal, Add and Subtract on two matrices whose logical shapes
differ signal the DifferentSize error condition (in particular Equal
signals it rather than returning false), on both backends. -/
theorem C6_shape_mismatch_signals_different_size :
    (∀ m n : DenseMatrix K, m.Shape ≠ n.Shape →
       m.Equal n = .error .DifferentSize ∧ m.Add n = .error .DifferentSize ∧
       m.Subtract n = .error .DifferentSize) ∧
    (∀ m n : HashMatrix K, m.Shape ≠ n.Shape →
       m.Equal n = .error .DifferentSize ∧ m.Add n = .error .DifferentSize ∧
       m.Subtract n = .error .DifferentSize) := by
  constructor
  · intro m n h
    refine ⟨?_, ?_, ?_⟩
    · rw [DenseMatrix.Equal, ShapeShouldBeSame_eq_error h]; rfl
    · rw [DenseMatrix.Add, ShapeShouldBeSame_eq_error h]; rfl
    · rw [DenseMatrix.Subtract, ShapeShouldBeSame_eq_error h]; rfl
  · intro m n h
    refine ⟨?_, ?_, ?_⟩
    · rw [HashMatrix.Equal, ShapeShouldBeSame_eq_error h]; rfl
    · rw [HashMatrix.Add, ShapeShouldBeSame_eq_error h]; rfl
    · rw [HashMatrix.Subtract, ShapeShouldBeSame_eq_error h]; rfl

/-- C6 witness: a 1×1 and a 1×2 matrix on each backend. -/
theorem C6_witness :
    ((⟨⟨1, 1⟩, ⟨1, 1⟩, ⟨0, 0⟩, 1, 1, [0], .reflect⟩ : DenseMatrix ℤ).Shape
        ≠ (⟨⟨1, 2⟩, ⟨1, 2⟩, ⟨0, 0⟩, 1, 2, [0, 0], .reflect⟩ : DenseMatrix ℤ).Shape) ∧
    ((⟨⟨1, 1⟩, ⟨1, 1⟩, ⟨0, 0⟩, 1, 1, [0], .reflect⟩ : DenseMatrix ℤ).Equal
        ⟨⟨1, 2⟩, ⟨1, 2⟩, ⟨0, 0⟩, 1, 2, [0, 0], .reflect⟩ = .error .DifferentSize ∧
      (⟨⟨1, 1⟩, ⟨1, 1⟩, ⟨0, 0⟩, 1, 1, [0], .reflect⟩ : DenseMatrix ℤ).Add
        ⟨⟨1, 2⟩, ⟨1, 2⟩, ⟨0, 0⟩, 1, 2, [0, 0], .reflect⟩ = .error .DifferentSize ∧
      (⟨⟨1, 1⟩, ⟨1, 1⟩, ⟨0, 0⟩, 1, 1, [0], .reflect⟩ : DenseMatrix ℤ).Subtract
        ⟨⟨1, 2⟩, ⟨1, 2⟩, ⟨0, 0⟩, 1, 2, [0, 0], .reflect⟩ = .error .DifferentSize) ∧
    ((⟨true, ⟨1, 1⟩, ⟨1, 1⟩, ⟨0, 0⟩, [], .reflect⟩ : HashMatrix ℤ).Equal
        ⟨true, ⟨1, 2⟩, ⟨1, 2⟩, ⟨0, 0⟩, [], .reflect⟩ = .error .DifferentSize ∧
      (⟨true, ⟨1, 1⟩, ⟨1, 1⟩, ⟨0, 0⟩, [], .reflect⟩ : HashMatrix ℤ).Add
        ⟨true, ⟨1, 2⟩, ⟨1, 2⟩, ⟨0, 0⟩, [], .reflect⟩ = .error .DifferentSize ∧
      (⟨true, ⟨1, 1⟩, ⟨1, 1⟩, ⟨0, 0⟩, [], .reflect⟩ : HashMatrix ℤ).Subtract
        ⟨true, ⟨1, 2⟩, ⟨1, 2⟩, ⟨0, 0⟩, [], .reflect⟩ = .error .DifferentSize) :=
  ⟨by decide,
    (C6_shape_mismatch_signals_different_size (K := ℤ)).1 _ _ (by decide),
    (C6_shape_mismatch_signals_different_size (K := ℤ)).2 _ _ (by decide)⟩

/-- C8: the sparse backend's Diagonal is an unimplemented stub returning
a nil cursor (the failing input), contradicting the cursor contract; the
dense backend's Diagonal does visit exactly the cells (i, i) with
0 ≤ i < min(rows, columns), each once, yielding the stored value. -/
theorem C8_diagonal_cursor :
    ((hashZeros 2 2 : Except MatrixPanic (HashMatrix ℤ)).map HashMatrix.Diagonal
      = .ok none) ∧
    (∀ (m : DenseMatrix K) (L : List (K × Int × Int)), m.Diagonal = some L →
       (∀ t ∈ L, t.2.1 = t.2.2 ∧ 0 ≤ t.2.1 ∧ t.2.1 < min m.Rows m.Columns ∧
         t.1 = m.GetF t.2.1 t.2.2) ∧
       (∀ i : Int, 0 ≤ i → i < min m.Rows m.Columns → (m.GetF i i, i, i) ∈ L) ∧
       (L.map fun t => t.2).Nodup) := by
  constructor
  · rfl
  · intro m L hL
    obtain rfl := (Option.some.inj hL).symm
    refine ⟨?_, ?_, ?_⟩
    · intro t ht
      obtain ⟨i, hi, heq⟩ := List.mem_map.mp ht
      obtain ⟨hi1, hi2⟩ := mem_intRange.mp hi
      obtain rfl := heq.symm
      exact ⟨rfl, hi1, hi2, rfl⟩
    · intro i h1 h2
      exact List.mem_map.mpr ⟨i, mem_intRange.mpr ⟨h1, h2⟩, rfl⟩
    · rw [List.map_map]
      refine List.Nodup.map ?_ (intRange_nodup _)
      intro a b h
      simpa using congrArg Prod.fst h

/-- C1: for every well-formed matrix (dense or sparse, including
transpose views, which are the matrices whose rewriter is the swap
variant) and every valid logical index, Update(r,c,v) followed by
Get(r,c) returns v — including v = 0 on the sparse backend, where the
write deletes the key. -/
theorem C1_update_get_roundtrip :
    (∀ (m : DenseMatrix K) (r c : Int) (v : K), m.Wf → ValidIdx m.Shape r c →
       (do let m' ← m.Update r c v; m'.Get r c) = .ok v) ∧
    (∀ (m : HashMatrix K) (r c : Int) (v : K), m.Wf → ValidIdx m.Shape r c →
       (do let m' ← m.Update r c v; m'.Get r c) = .ok v) := by
  constructor
  · intro m r c v hm hv
    rw [DenseMatrix.Update_eq_ok_dense hv, exceptBind_ok]
    have hv' : ValidIdx (m.updF r c v).Shape r c := by
      rw [(DenseMatrix.updF_fields_dense m r c v).2.2.2]; exact hv
    rw [DenseMatrix.Get_eq_ok_dense hv', DenseMatrix.GetF_updF_self_dense hm hv]
  · intro m r c v hm hv
    rw [HashMatrix.Update_eq_ok_hash hv, exceptBind_ok]
    have hv' : ValidIdx (m.updF r c v).Shape r c := by
      rw [(HashMatrix.updF_fields_hash m r c v).2.2.2.2]; exact hv
    rw [HashMatrix.Get_eq_ok_hash hv', HashMatrix.GetF_updF_self_hash hm hv]

/-- C1 witness: a transposed 2×3 dense matrix at index (2,1), and a
transposed sparse matrix at the same index written with v = 0. -/
theorem C1_witness :
    ((⟨⟨2, 3⟩, ⟨2, 3⟩, ⟨0, 0⟩, 2, 3, [1, 2, 3, 4, 5, 6], .reverse⟩ : DenseMatrix ℤ).Wf ∧
      ValidIdx (⟨⟨2, 3⟩, ⟨2, 3⟩, ⟨0, 0⟩, 2, 3,
        [1, 2, 3, 4, 5, 6], .reverse⟩ : DenseMatrix ℤ).Shape 2 1) ∧
    (do let m' ← (⟨⟨2, 3⟩, ⟨2, 3⟩, ⟨0, 0⟩, 2, 3,
          [1, 2, 3, 4, 5, 6], .reverse⟩ : DenseMatrix ℤ).Update 2 1 9
        m'.Get 2 1) = .ok 9 ∧
    ((⟨true, ⟨2, 3⟩, ⟨2, 3⟩, ⟨0, 0⟩, [(5, 7)], .reverse⟩ : HashMatrix ℤ).Wf ∧
      ValidIdx (⟨true, ⟨2, 3⟩, ⟨2, 3⟩, ⟨0, 0⟩,
        [(5, 7)], .reverse⟩ : HashMatrix ℤ).Shape 2 1) ∧
    (do let m' ← (⟨true, ⟨2, 3⟩, ⟨2, 3⟩, ⟨0, 0⟩,
          [(5, 7)], .reverse⟩ : HashMatrix ℤ).Update 2 1 0
        m'.Get 2 1) = .ok 0 :=
  ⟨⟨by decide, by decide⟩,
    (C1_update_get_roundtrip (K := ℤ)).1 _ 2 1 9 (by decide) (by decide),
    ⟨by decide, by decide⟩,
    (C1_update_get_roundtrip (K := ℤ)).2 _ 2 1 0 (by decide) (by decide)⟩

/-- C4: a mutation performed through a sub-view is immediately visible
through the base matrix handle sharing the same backing map: after
v := M.View(vr,vc,·,·) and v.Update(r,c,x), reading M (with the shared
storage) at the corresponding coordinate (vr+r, vc+c) yields x — the
view aliases the storage, it does not copy it. -/
theorem C4_view_mutation_visible_in_base :
    ∀ (m v v' : HashMatrix K) (vr vc vrows vcols r c : Int) (x : K),
      m.Wf →
      m.View vr vc vrows vcols = .ok v →
      v.Update r c x = .ok v' →
      ValidIdx m.Shape (vr + r) (vc + c) →
      ({ m with elements := v'.elements } : HashMatrix K).Get (vr + r) (vc + c)
        = .ok x := by
  intro m v v' vr vc vrows vcols r c x hm hview hupd hvalid
  obtain rfl := HashMatrix.View_inv hview
  by_cases hval : ValidIdx (HashMatrix.Shape ⟨true, m.base,
      ⟨(m.rewriter.Rewrite vrows vcols).1, (m.rewriter.Rewrite vrows vcols).2⟩,
      ⟨m.offset.row + (m.rewriter.Rewrite vr vc).1,
       m.offset.column + (m.rewriter.Rewrite vr vc).2⟩,
      m.elements, m.rewriter⟩) r c
  · rw [HashMatrix.Update_eq_ok_hash hval] at hupd
    obtain rfl := (Except.ok.inj hupd).symm
    have hkey : (HashMatrix.key ⟨true, m.base,
          ⟨(m.rewriter.Rewrite vrows vcols).1, (m.rewriter.Rewrite vrows vcols).2⟩,
          ⟨m.offset.row + (m.rewriter.Rewrite vr vc).1,
           m.offset.column + (m.rewriter.Rewrite vr vc).2⟩,
          m.elements, m.rewriter⟩
          (m.rewriter.Rewrite r c).1 (m.rewriter.Rewrite r c).2)
        = m.key (m.rewriter.Rewrite (vr + r) (vc + c)).1
            (m.rewriter.Rewrite (vr + r) (vc + c)).2 := by
      dsimp only [HashMatrix.key]
      rw [Rewriter.Rewrite_add]
      dsimp only
      ring
    have hMeq : ({ m with elements := ((⟨true, m.base,
          ⟨(m.rewriter.Rewrite vrows vcols).1, (m.rewriter.Rewrite vrows vcols).2⟩,
          ⟨m.offset.row + (m.rewriter.Rewrite vr vc).1,
           m.offset.column + (m.rewriter.Rewrite vr vc).2⟩,
          m.elements, m.rewriter⟩ : HashMatrix K).updF r c x).elements } : HashMatrix K)
        = m.updF (vr + r) (vc + c) x := by
      rw [HashMatrix.updF, HashMatrix.updF]
      by_cases hx : x = 0
      · rw [if_pos hx, if_pos hx]
        dsimp only
        rw [hkey]
      · rw [if_neg hx, if_neg hx]
        dsimp only
        rw [hkey]
    rw [hMeq]
    have hv2 : ValidIdx (m.updF (vr + r) (vc + c) x).Shape (vr + r) (vc + c) := by
      rw [(HashMatrix.updF_fields_hash m (vr + r) (vc + c) x).2.2.2.2]; exact hvalid
    rw [HashMatrix.Get_eq_ok_hash hv2, HashMatrix.GetF_updF_self_hash hm hvalid]
  · rw [HashMatrix.Update_eq_error_hash hval] at hupd
    cases hupd

/-- C4 witness: the spec's own example — M a 3×3 sparse zero matrix,
v := M.View(0,0,2,2), v.Update(0,0,9); then M.Get(0,0) = 9. -/
theorem C4_witness :
    ((⟨true, ⟨3, 3⟩, ⟨3, 3⟩, ⟨0, 0⟩, [], .reflect⟩ : HashMatrix ℤ).Wf ∧
      (⟨true, ⟨3, 3⟩, ⟨3, 3⟩, ⟨0, 0⟩, [], .reflect⟩ : HashMatrix ℤ).View 0 0 2 2
        = .ok ⟨true, ⟨3, 3⟩, ⟨2, 2⟩, ⟨0, 0⟩, [], .reflect⟩ ∧
      (⟨true, ⟨3, 3⟩, ⟨2, 2⟩, ⟨0, 0⟩, [], .reflect⟩ : HashMatrix ℤ).Update 0 0 9
        = .ok ⟨true, ⟨3, 3⟩, ⟨2, 2⟩, ⟨0, 0⟩, [(0, 9)], .reflect⟩ ∧
      ValidIdx (⟨true, ⟨3, 3⟩, ⟨3, 3⟩, ⟨0, 0⟩,
        [], .reflect⟩ : HashMatrix ℤ).Shape (0 + 0) (0 + 0)) ∧
    ({ (⟨true, ⟨3, 3⟩, ⟨3, 3⟩, ⟨0, 0⟩, [], .reflect⟩ : HashMatrix ℤ) with
        elements := (⟨true, ⟨3, 3⟩, ⟨2, 2⟩, ⟨0, 0⟩, [(0, 9)],
          .reflect⟩ : HashMatrix ℤ).elements } : HashMatrix ℤ).Get (0 + 0) (0 + 0)
      = .ok 9 :=
  ⟨⟨by decide, rfl, rfl, by decide⟩,
    C4_view_mutation_visible_in_base _ _ _ 0 0 2 2 0 0 9 (by decide) rfl rfl (by decide)⟩

/-- C7 (amended): constructing a sparse matrix from an explicit element
list fails with InvalidElements when two in-bounds elements target the
same (row, column); an out-of-bounds element instead fails with
OutOfRange (raised by the per-element index validation), not
InvalidElements. -/
theorem C7_new_duplicate_and_oob :
    (∀ (rows columns : Int) (elements : List (HashElement K)),
       0 < rows → 0 < columns →
       (∀ e ∈ elements, 0 ≤ e.Row ∧ e.Row < rows ∧ 0 ≤ e.Column ∧ e.Column < columns) →
       ¬ (elements.map fun e => (e.Row, e.Column)).Nodup →
       hashNew rows columns elements = .error .InvalidElements) ∧
    (∀ (rows columns : Int) (elements : List (HashElement K)),
       0 < rows → 0 < columns →
       ((elements.map fun e => (e.Row, e.Column)).Nodup) →
       (∃ e ∈ elements, ¬(0 ≤ e.Row ∧ e.Row < rows ∧ 0 ≤ e.Column ∧ e.Column < columns)) →
       hashNew rows columns elements = .error .OutOfRange) := by
  constructor
  · intro rows columns elements h1 h2 hb hdup
    rw [hashNew, ShapeShouldBePositive_eq_ok h1 h2, exceptBind_ok]
    dsimp only
    rw [show hashLoad columns ⟨rows, columns⟩ [] elements
          = (.error .InvalidElements : Except MatrixPanic (List (Int × K))) from ?_]
    · rfl
    · refine hashLoad_dup elements [] hb (by simp) ?_
      intro hnd
      apply hdup
      have heq : (elements.map fun e => e.Row * columns + e.Column)
          = (elements.map fun e => (e.Row, e.Column)).map fun rc =>
              rc.1 * columns + rc.2 := by
        rw [List.map_map]; rfl
      refine List.Nodup.of_map (fun rc => rc.1 * columns + rc.2) ?_
      rw [← heq]
      simpa using hnd
  · intro rows columns elements h1 h2 hnd hex
    rw [hashNew, ShapeShouldBePositive_eq_ok h1 h2, exceptBind_ok]
    dsimp only
    rw [show hashLoad columns ⟨rows, columns⟩ [] elements
          = (.error .OutOfRange : Except MatrixPanic (List (Int × K))) from ?_]
    · rfl
    · exact hashLoad_oob elements [] hnd (fun _ _ _ => rfl) hex

/-- C7 counterexample: an out-of-bounds element makes construction fail
with OutOfRange, not with InvalidElements as the claim states. -/
theorem C7_counterexample_oob_is_out_of_range :
    hashNew 2 2 [⟨5, 0, (1 : ℤ)⟩] = .error .OutOfRange ∧
    (Except.error .OutOfRange : Except MatrixPanic (HashMatrix ℤ))
      ≠ .error .InvalidElements :=
  ⟨rfl, by decide⟩

/-- C7 witness: a duplicate-coordinate list and an out-of-bounds list. -/
theorem C7_witness :
    ((0 : Int) < 2 ∧ (0 : Int) < 2 ∧
      (∀ e ∈ [(⟨0, 0, 1⟩ : HashElement ℤ), ⟨0, 0, 2⟩],
        0 ≤ e.Row ∧ e.Row < 2 ∧ 0 ≤ e.Column ∧ e.Column < 2) ∧
      ¬ ([(⟨0, 0, 1⟩ : HashElement ℤ), ⟨0, 0, 2⟩].map fun e =>
          (e.Row, e.Column)).Nodup) ∧
    hashNew 2 2 [(⟨0, 0, 1⟩ : HashElement ℤ), ⟨0, 0, 2⟩] = .error .InvalidElements ∧
    (([(⟨5, 0, 1⟩ : HashElement ℤ)].map fun e => (e.Row, e.Column)).Nodup ∧
      ∃ e ∈ [(⟨5, 0, 1⟩ : HashElement ℤ)],
        ¬(0 ≤ e.Row ∧ e.Row < 2 ∧ 0 ≤ e.Column ∧ e.Column < 2)) ∧
    hashNew 2 2 [(⟨5, 0, 1⟩ : HashElement ℤ)] = .error .OutOfRange :=
  ⟨⟨by decide, by decide, by decide, by decide⟩,
    (C7_new_duplicate_and_oob (K := ℤ)).1 2 2 _ (by decide) (by decide)
      (by decide) (by decide),
    ⟨by decide, by decide⟩,
    (C7_new_duplicate_and_oob (K := ℤ)).2 2 2 _ (by decide) (by decide)
      (by decide) (by decide)⟩

/-- C10 (amended): for every well-formed dense matrix whose rewriter is
the identity (i.e. not a transpose view), Max() returns the largest
stored element value and a coordinate at which Get yields it, and Min()
symmetrically the smallest; on a transpose view the returned coordinate
is wrong in general (see the counterexample), because
convertToRowColumn divides the physical buffer index by the *logical*
column count. -/
theorem C10_max_min_coordinates :
    ∀ m : DenseMatrix K, m.Wf → m.rewriter = .reflect →
      ((∀ e ∈ m.elements, e ≤ m.Max.1) ∧ m.Max.1 ∈ m.elements ∧
        m.Get m.Max.2.1 m.Max.2.2 = .ok m.Max.1) ∧
      ((∀ e ∈ m.elements, m.Min.1 ≤ e) ∧ m.Min.1 ∈ m.elements ∧
        m.Get m.Min.2.1 m.Min.2.2 = .ok m.Min.1) :=
  fun _ hm hr => ⟨DenseMatrix.Max_spec hm hr, DenseMatrix.Min_spec hm hr⟩

/-- C10 counterexample: on the transpose view of the dense 2×3 matrix
[[1,5,2],[3,4,0]], Max() returns value 5 with coordinate (0,1), but
Get(0,1) on that view is 3 ≠ 5 — the coordinate does not locate the
returned value. -/
theorem C10_counterexample_transposed_max :
    (⟨⟨2, 3⟩, ⟨2, 3⟩, ⟨0, 0⟩, 2, 3, [1, 5, 2, 3, 4, 0],
      .reflect⟩ : DenseMatrix ℤ).Transpose.Max = (5, 0, 1) ∧
    (⟨⟨2, 3⟩, ⟨2, 3⟩, ⟨0, 0⟩, 2, 3, [1, 5, 2, 3, 4, 0],
      .reflect⟩ : DenseMatrix ℤ).Transpose.Get 0 1 = .ok 3 ∧
    (3 : ℤ) ≠ 5 :=
  ⟨rfl, rfl, by decide⟩

/-- C10 witness: the non-transposed 2×3 matrix [[1,5,2],[3,4,0]]. -/
theorem C10_witness :
    ((⟨⟨2, 3⟩, ⟨2, 3⟩, ⟨0, 0⟩, 2, 3, [1, 5, 2, 3, 4, 0],
        .reflect⟩ : DenseMatrix ℤ).Wf ∧
      (⟨⟨2, 3⟩, ⟨2, 3⟩, ⟨0, 0⟩, 2, 3, [1, 5, 2, 3, 4, 0],
        .reflect⟩ : DenseMatrix ℤ).rewriter = .reflect) ∧
    (((∀ e ∈ (⟨⟨2, 3⟩, ⟨2, 3⟩, ⟨0, 0⟩, 2, 3, [1, 5, 2, 3, 4, 0],
          .reflect⟩ : DenseMatrix ℤ).elements,
        e ≤ (⟨⟨2, 3⟩, ⟨2, 3⟩, ⟨0, 0⟩, 2, 3, [1, 5, 2, 3, 4, 0],
          .reflect⟩ : DenseMatrix ℤ).Max.1) ∧
      (⟨⟨2, 3⟩, ⟨2, 3⟩, ⟨0, 0⟩, 2, 3, [1, 5, 2, 3, 4, 0],
          .reflect⟩ : DenseMatrix ℤ).Max.1
        ∈ (⟨⟨2, 3⟩, ⟨2, 3⟩, ⟨0, 0⟩, 2, 3, [1, 5, 2, 3, 4, 0],
          .reflect⟩ : DenseMatrix ℤ).elements ∧
      (⟨⟨2, 3⟩, ⟨2, 3⟩, ⟨0, 0⟩, 2, 3, [1, 5, 2, 3, 4, 0],
          .reflect⟩ : DenseMatrix ℤ).Get
        (⟨⟨2, 3⟩, ⟨2, 3⟩, ⟨0, 0⟩, 2, 3, [1, 5, 2, 3, 4, 0],
          .reflect⟩ : DenseMatrix ℤ).Max.2.1
        (⟨⟨2, 3⟩, ⟨2, 3⟩, ⟨0, 0⟩, 2, 3, [1, 5, 2, 3, 4, 0],
          .reflect⟩ : DenseMatrix ℤ).Max.2.2
        = .ok (⟨⟨2, 3⟩, ⟨2, 3⟩, ⟨0, 0⟩, 2, 3, [1, 5, 2, 3, 4, 0],
          .reflect⟩ : DenseMatrix ℤ).Max.1) ∧
     ((∀ e ∈ (⟨⟨2, 3⟩, ⟨2, 3⟩, ⟨0, 0⟩, 2, 3, [1, 5, 2, 3, 4, 0],
          .reflect⟩ : DenseMatrix ℤ).elements,
        (⟨⟨2, 3⟩, ⟨2, 3⟩, ⟨0, 0⟩, 2, 3, [1, 5, 2, 3, 4, 0],
          .reflect⟩ : DenseMatrix ℤ).Min.1 ≤ e) ∧
      (⟨⟨2, 3⟩, ⟨2, 3⟩, ⟨0, 0⟩, 2, 3, [1, 5, 2, 3, 4, 0],
          .reflect⟩ : DenseMatrix ℤ).Min.1
        ∈ (⟨⟨2, 3⟩, ⟨2, 3⟩, ⟨0, 0⟩, 2, 3, [1, 5, 2, 3, 4, 0],
          .reflect⟩ : DenseMatrix ℤ).elements ∧
      (⟨⟨2, 3⟩, ⟨2, 3⟩, ⟨0, 0⟩, 2, 3, [1, 5, 2, 3, 4, 0],
          .reflect⟩ : DenseMatrix ℤ).Get
        (⟨⟨2, 3⟩, ⟨2, 3⟩, ⟨0, 0⟩, 2, 3, [1, 5, 2, 3, 4, 0],
          .reflect⟩ : DenseMatrix ℤ).Min.2.1
        (⟨⟨2, 3⟩, ⟨2, 3⟩, ⟨0, 0⟩, 2, 3, [1, 5, 2, 3, 4, 0],
          .reflect⟩ : DenseMatrix ℤ).Min.2.2
        = .ok (⟨⟨2, 3⟩, ⟨2, 3⟩, ⟨0, 0⟩, 2, 3, [1, 5, 2, 3, 4, 0],
          .reflect⟩ : DenseMatrix ℤ).Min.1)) :=
  ⟨⟨by decide, rfl⟩,
    C10_max_min_coordinates _ (by decide) rfl⟩

/-- C8 witness: a concrete 2×2 dense matrix's diagonal cursor. -/
theorem C8_witness :
    (⟨⟨2, 2⟩, ⟨2, 2⟩, ⟨0, 0⟩, 2, 2, [1, 2, 3, 4],
        .reflect⟩ : DenseMatrix ℤ).Diagonal = some [(1, 0, 0), (4, 1, 1)] ∧
    ((∀ t ∈ [((1 : ℤ), (0 : Int), (0 : Int)), (4, 1, 1)], t.2.1 = t.2.2 ∧ 0 ≤ t.2.1 ∧
        t.2.1 < min (⟨⟨2, 2⟩, ⟨2, 2⟩, ⟨0, 0⟩, 2, 2, [1, 2, 3, 4],
          .reflect⟩ : DenseMatrix ℤ).Rows
            (⟨⟨2, 2⟩, ⟨2, 2⟩, ⟨0, 0⟩, 2, 2, [1, 2, 3, 4],
          .reflect⟩ : DenseMatrix ℤ).Columns ∧
        t.1 = (⟨⟨2, 2⟩, ⟨2, 2⟩, ⟨0, 0⟩, 2, 2, [1, 2, 3, 4],
          .reflect⟩ : DenseMatrix ℤ).GetF t.2.1 t.2.2) ∧
      (∀ i : Int, 0 ≤ i →
        i < min (⟨⟨2, 2⟩, ⟨2, 2⟩, ⟨0, 0⟩, 2, 2, [1, 2, 3, 4],
          .reflect⟩ : DenseMatrix ℤ).Rows
            (⟨⟨2, 2⟩, ⟨2, 2⟩, ⟨0, 0⟩, 2, 2, [1, 2, 3, 4],
          .reflect⟩ : DenseMatrix ℤ).Columns →
        ((⟨⟨2, 2⟩, ⟨2, 2⟩, ⟨0, 0⟩, 2, 2, [1, 2, 3, 4],
          .reflect⟩ : DenseMatrix ℤ).GetF i i, i, i)
          ∈ [((1 : ℤ), (0 : Int), (0 : Int)), (4, 1, 1)]) ∧
      (([((1 : ℤ), (0 : Int), (0 : Int)), (4, 1, 1)].map fun t => t.2)).Nodup) :=
  ⟨rfl, (C8_diagonal_cursor (K := ℤ)).2 _ [(1, 0, 0), (4, 1, 1)] rfl⟩

/-- C9: for any two well-formed matrices of equal shape (on either
backend), M.Add(N).Subtract(N) is element-wise Equal to the original
value of M — over the exact-arithmetic model of the library's scalar
elements. -/
theorem C9_add_subtract_roundtrip :
    (∀ m n : DenseMatrix K, m.Wf → n.Wf → m.Shape = n.Shape →
       ∃ m1 m2, m.Add n = .ok m1 ∧ m1.Subtract n = .ok m2 ∧
         m2.Equal m = .ok true) ∧
    (∀ m n : HashMatrix K, m.Wf → n.Wf → m.Shape = n.Shape →
       ∃ m1 m2, m.Add n = .ok m1 ∧ m1.Subtract n = .ok m2 ∧
         m2.Equal m = .ok true) := by
  constructor
  · intro m n hm hn hsh
    obtain ⟨m1, h1run, h1wf, h1sh, h1get⟩ := DenseMatrix.Add_spec_dense hm hn hsh
    obtain ⟨m2, h2run, h2wf, h2sh, h2get⟩ :=
      DenseMatrix.Subtract_spec_dense h1wf hn (by rw [h1sh, hsh])
    refine ⟨m1, m2, h1run, h2run, ?_⟩
    refine DenseMatrix.Equal_eq_true_dense (by rw [h2sh, h1sh]) ?_
    intro r c hv
    have hv1 : ValidIdx m1.Shape r c := by rw [h1sh]; exact hv
    rw [h2get r c hv1, h1get r c hv]
    ring
  · intro m n hm hn hsh
    obtain ⟨m1, h1run, h1wf, h1sh, h1get⟩ := HashMatrix.Add_spec_hash hm hn hsh
    obtain ⟨m2, h2run, h2wf, h2sh, h2get⟩ :=
      HashMatrix.Subtract_spec_hash h1wf hn (by rw [h1sh, hsh])
    refine ⟨m1, m2, h1run, h2run, ?_⟩
    refine HashMatrix.Equal_eq_true_hash (by rw [h2sh, h1sh]) ?_
    intro r c hv
    have hv1 : ValidIdx m1.Shape r c := by rw [h1sh]; exact hv
    rw [h2get r c hv1, h1get r c hv]
    ring

/-- C9 witness: concrete 2×2 pairs on each backend. -/
theorem C9_witness :
    ((⟨⟨2, 2⟩, ⟨2, 2⟩, ⟨0, 0⟩, 2, 2, [1, 2, 3, 4], .reflect⟩ : DenseMatrix ℤ).Wf ∧
      (⟨⟨2, 2⟩, ⟨2, 2⟩, ⟨0, 0⟩, 2, 2, [5, 0, 7, 8], .reflect⟩ : DenseMatrix ℤ).Wf ∧
      (⟨⟨2, 2⟩, ⟨2, 2⟩, ⟨0, 0⟩, 2, 2, [1, 2, 3, 4], .reflect⟩ : DenseMatrix ℤ).Shape
        = (⟨⟨2, 2⟩, ⟨2, 2⟩, ⟨0, 0⟩, 2, 2, [5, 0, 7, 8], .reflect⟩ : DenseMatrix ℤ).Shape) ∧
    (∃ m1 m2,
      (⟨⟨2, 2⟩, ⟨2, 2⟩, ⟨0, 0⟩, 2, 2, [1, 2, 3, 4], .reflect⟩ : DenseMatrix ℤ).Add
        ⟨⟨2, 2⟩, ⟨2, 2⟩, ⟨0, 0⟩, 2, 2, [5, 0, 7, 8], .reflect⟩ = .ok m1 ∧
      m1.Subtract ⟨⟨2, 2⟩, ⟨2, 2⟩, ⟨0, 0⟩, 2, 2, [5, 0, 7, 8], .reflect⟩ = .ok m2 ∧
      m2.Equal ⟨⟨2, 2⟩, ⟨2, 2⟩, ⟨0, 0⟩, 2, 2, [1, 2, 3, 4], .reflect⟩ = .ok true) ∧
    ((⟨true, ⟨2, 2⟩, ⟨2, 2⟩, ⟨0, 0⟩, [(0, 1), (3, 4)], .reflect⟩ : HashMatrix ℤ).Wf ∧
      (⟨true, ⟨2, 2⟩, ⟨2, 2⟩, ⟨0, 0⟩, [(1, 6)], .reflect⟩ : HashMatrix ℤ).Wf ∧
      (⟨true, ⟨2, 2⟩, ⟨2, 2⟩, ⟨0, 0⟩, [(0, 1), (3, 4)], .reflect⟩ : HashMatrix ℤ).Shape
        = (⟨true, ⟨2, 2⟩, ⟨2, 2⟩, ⟨0, 0⟩, [(1, 6)], .reflect⟩ : HashMatrix ℤ).Shape) ∧
    (∃ m1 m2,
      (⟨true, ⟨2, 2⟩, ⟨2, 2⟩, ⟨0, 0⟩, [(0, 1), (3, 4)], .reflect⟩ : HashMatrix ℤ).Add
        ⟨true, ⟨2, 2⟩, ⟨2, 2⟩, ⟨0, 0⟩, [(1, 6)], .reflect⟩ = .ok m1 ∧
      m1.Subtract ⟨true, ⟨2, 2⟩, ⟨2, 2⟩, ⟨0, 0⟩, [(1, 6)], .reflect⟩ = .ok m2 ∧
      m2.Equal ⟨true, ⟨2, 2⟩, ⟨2, 2⟩, ⟨0, 0⟩, [(0, 1), (3, 4)], .reflect⟩ = .ok true) :=
  ⟨⟨by decide, by decide, by decide⟩,
    (C9_add_subtract_roundtrip (K := ℤ)).1 _ _ (by decide) (by decide) (by decide),
    ⟨by decide, by decide, by decide⟩,
    (C9_add_subtract_roundtrip (K := ℤ)).2 _ _ (by decide) (by decide) (by decide)⟩

/-- C5: when the receiver's column count equals the argument's row count,
Multiply returns a newly allocated matrix of shape (receiver.rows,
n.columns) equal to the standard matrix product — cell (i,k) is the sum
over j of receiver.Get(i,j) * n.Get(j,k) — on both backends (the
accumulation runs over n's non-zero elements only); in particular, for
M = [[1,0,2],[0,1,0]] and N = [[1,0],[0,1],[1,1]], M.Multiply(N) equals
[[3,2],[0,1]]. -/
theorem C5_multiply_standard_product :
    (∀ m n : DenseMatrix K, m.Wf → n.Wf → m.Columns = n.Rows →
       ∃ r, m.Multiply n = .ok r ∧ r.Shape = (m.Rows, n.Columns) ∧
         ∀ i k, ValidIdx (m.Rows, n.Columns) i k →
           r.Get i k
             = .ok (((intRange n.Rows).map fun j => m.GetF i j * n.GetF j k).sum)) ∧
    (∀ m n : HashMatrix K, m.Wf → n.Wf → m.Columns = n.Rows →
       ∃ r, m.Multiply n = .ok r ∧ r.Shape = (m.Rows, n.Columns) ∧
         ∀ i k, ValidIdx (m.Rows, n.Columns) i k →
           r.Get i k
             = .ok (((intRange n.Rows).map fun j => m.GetF i j * n.GetF j k).sum)) ∧
    (((⟨⟨2, 3⟩, ⟨2, 3⟩, ⟨0, 0⟩, 2, 3, [1, 0, 2, 0, 1, 0], .reflect⟩ : DenseMatrix ℤ).Multiply
        ⟨⟨3, 2⟩, ⟨3, 2⟩, ⟨0, 0⟩, 3, 2, [1, 0, 0, 1, 1, 1], .reflect⟩).map
        (fun r => (r.Shape, r.Get 0 0, r.Get 0 1, r.Get 1 0, r.Get 1 1))
      = .ok ((2, 2), .ok 3, .ok 2, .ok 0, .ok 1)) ∧
    (((⟨true, ⟨2, 3⟩, ⟨2, 3⟩, ⟨0, 0⟩, [(0, 1), (2, 2), (4, 1)], .reflect⟩ : HashMatrix ℤ).Multiply
        ⟨true, ⟨3, 2⟩, ⟨3, 2⟩, ⟨0, 0⟩, [(0, 1), (3, 1), (4, 1), (5, 1)], .reflect⟩).map
        (fun r => (r.Shape, r.Get 0 0, r.Get 0 1, r.Get 1 0, r.Get 1 1))
      = .ok ((2, 2), .ok 3, .ok 2, .ok 0, .ok 1)) := by
  refine ⟨?_, ?_, by decide, by decide⟩
  · intro m n hm hn hmul
    exact DenseMatrix.Multiply_spec_dense hm hn hmul
  · intro m n hm hn hmul
    exact HashMatrix.Multiply_spec_hash hm hn hmul

/-- C5 witness: the claim's own example matrices discharge the
hypotheses on both backends. -/
theorem C5_witness :
    ((⟨⟨2, 3⟩, ⟨2, 3⟩, ⟨0, 0⟩, 2, 3, [1, 0, 2, 0, 1, 0], .reflect⟩ : DenseMatrix ℤ).Wf ∧
      (⟨⟨3, 2⟩, ⟨3, 2⟩, ⟨0, 0⟩, 3, 2, [1, 0, 0, 1, 1, 1], .reflect⟩ : DenseMatrix ℤ).Wf ∧
      (⟨⟨2, 3⟩, ⟨2, 3⟩, ⟨0, 0⟩, 2, 3, [1, 0, 2, 0, 1, 0], .reflect⟩ : DenseMatrix ℤ).Columns
        = (⟨⟨3, 2⟩, ⟨3, 2⟩, ⟨0, 0⟩, 3, 2, [1, 0, 0, 1, 1, 1], .reflect⟩ : DenseMatrix ℤ).Rows) ∧
    (∃ r, (⟨⟨2, 3⟩, ⟨2, 3⟩, ⟨0, 0⟩, 2, 3, [1, 0, 2, 0, 1, 0], .reflect⟩ : DenseMatrix ℤ).Multiply
        ⟨⟨3, 2⟩, ⟨3, 2⟩, ⟨0, 0⟩, 3, 2, [1, 0, 0, 1, 1, 1], .reflect⟩ = .ok r ∧
      r.Shape = ((⟨⟨2, 3⟩, ⟨2, 3⟩, ⟨0, 0⟩, 2, 3, [1, 0, 2, 0, 1, 0],
          .reflect⟩ : DenseMatrix ℤ).Rows,
        (⟨⟨3, 2⟩, ⟨3, 2⟩, ⟨0, 0⟩, 3, 2, [1, 0, 0, 1, 1, 1], .reflect⟩ : DenseMatrix ℤ).Columns) ∧
      ∀ i k, ValidIdx ((⟨⟨2, 3⟩, ⟨2, 3⟩, ⟨0, 0⟩, 2, 3, [1, 0, 2, 0, 1, 0],
          .reflect⟩ : DenseMatrix ℤ).Rows,
        (⟨⟨3, 2⟩, ⟨3, 2⟩, ⟨0, 0⟩, 3, 2, [1, 0, 0, 1, 1, 1],
          .reflect⟩ : DenseMatrix ℤ).Columns) i k →
        r.Get i k = .ok (((intRange (⟨⟨3, 2⟩, ⟨3, 2⟩, ⟨0, 0⟩, 3, 2, [1, 0, 0, 1, 1, 1],
            .reflect⟩ : DenseMatrix ℤ).Rows).map fun j =>
          (⟨⟨2, 3⟩, ⟨2, 3⟩, ⟨0, 0⟩, 2, 3, [1, 0, 2, 0, 1, 0],
            .reflect⟩ : DenseMatrix ℤ).GetF i j *
          (⟨⟨3, 2⟩, ⟨3, 2⟩, ⟨0, 0⟩, 3, 2, [1, 0, 0, 1, 1, 1],
            .reflect⟩ : DenseMatrix ℤ).GetF j k).sum)) ∧
    ((⟨true, ⟨2, 3⟩, ⟨2, 3⟩, ⟨0, 0⟩, [(0, 1), (2, 2), (4, 1)],
        .reflect⟩ : HashMatrix ℤ).Wf ∧
      (⟨true, ⟨3, 2⟩, ⟨3, 2⟩, ⟨0, 0⟩, [(0, 1), (3, 1), (4, 1), (5, 1)],
        .reflect⟩ : HashMatrix ℤ).Wf ∧
      (⟨true, ⟨2, 3⟩, ⟨2, 3⟩, ⟨0, 0⟩, [(0, 1), (2, 2), (4, 1)],
        .reflect⟩ : HashMatrix ℤ).Columns
        = (⟨true, ⟨3, 2⟩, ⟨3, 2⟩, ⟨0, 0⟩, [(0, 1), (3, 1), (4, 1), (5, 1)],
            .reflect⟩ : HashMatrix ℤ).Rows) ∧
    (∃ r, (⟨true, ⟨2, 3⟩, ⟨2, 3⟩, ⟨0, 0⟩, [(0, 1), (2, 2), (4, 1)],
        .reflect⟩ : HashMatrix ℤ).Multiply
        ⟨true, ⟨3, 2⟩, ⟨3, 2⟩, ⟨0, 0⟩, [(0, 1), (3, 1), (4, 1), (5, 1)], .reflect⟩ = .ok r ∧
      r.Shape = ((⟨true, ⟨2, 3⟩, ⟨2, 3⟩, ⟨0, 0⟩, [(0, 1), (2, 2), (4, 1)],
          .reflect⟩ : HashMatrix ℤ).Rows,
        (⟨true, ⟨3, 2⟩, ⟨3, 2⟩, ⟨0, 0⟩, [(0, 1), (3, 1), (4, 1), (5, 1)],
          .reflect⟩ : HashMatrix ℤ).Columns) ∧
      ∀ i k, ValidIdx ((⟨true, ⟨2, 3⟩, ⟨2, 3⟩, ⟨0, 0⟩, [(0, 1), (2, 2), (4, 1)],
          .reflect⟩ : HashMatrix ℤ).Rows,
        (⟨true, ⟨3, 2⟩, ⟨3, 2⟩, ⟨0, 0⟩, [(0, 1), (3, 1), (4, 1), (5, 1)],
          .reflect⟩ : HashMatrix ℤ).Columns) i k →
        r.Get i k = .ok (((intRange (⟨true, ⟨3, 2⟩, ⟨3, 2⟩, ⟨0, 0⟩,
            [(0, 1), (3, 1), (4, 1), (5, 1)], .reflect⟩ : HashMatrix ℤ).Rows).map fun j =>
          (⟨true, ⟨2, 3⟩, ⟨2, 3⟩, ⟨0, 0⟩, [(0, 1), (2, 2), (4, 1)],
            .reflect⟩ : HashMatrix ℤ).GetF i j *
          (⟨true, ⟨3, 2⟩, ⟨3, 2⟩, ⟨0, 0⟩, [(0, 1), (3, 1), (4, 1), (5, 1)],
            .reflect⟩ : HashMatrix ℤ).GetF j k).sum)) :=
  ⟨⟨by decide, by decide, by decide⟩,
    (C5_multiply_standard_product (K := ℤ)).1 _ _ (by decide) (by decide) (by decide),
    ⟨by decide, by decide, by decide⟩,
    (C5_multiply_standard_product (K := ℤ)).2.1 _ _ (by decide) (by decide) (by decide)⟩

end Claims

end MatrixGo
